import Mathlib

/-!
# Verification of the zlog wire codec, ring buffer, async writer and buffer pool

Shallow embedding of the Go package `zlog` (semihalev/zlog).  Machine
integers are modelled as `Nat` with explicit `% 2^w` where the Go code can
overflow; byte buffers are `List Nat` whose elements are byte values; the
fallible decoder returns `Option` (with `none` marking an out-of-range
slice access, which the safety theorem shows is unreachable) wrapping an
`Except String` for the decode errors the Go code reports.
-/

namespace Zlog

/-! ## Bytes and integer serialization helpers -/

/-- The `i`-th little-endian byte of `n` (how an x86 `*(*uint64)(p) = n`
store lays out memory, as used by `writeBinaryHeader` and
`Logger.formatMessage`). -/
def leByte (n i : Nat) : Nat := n >>> (8 * i) % 256

/-- Little-endian 8-byte encoding of a 64-bit value. -/
def le8 (n : Nat) : List Nat :=
  [leByte n 0, leByte n 1, leByte n 2, leByte n 3,
   leByte n 4, leByte n 5, leByte n 6, leByte n 7]

/-- Big-endian 8-byte encoding, as `encodeField` writes 64-bit values. -/
def be8 (n : Nat) : List Nat :=
  [leByte n 7, leByte n 6, leByte n 5, leByte n 4,
   leByte n 3, leByte n 2, leByte n 1, leByte n 0]

/-- Big-endian 4-byte encoding, as `encodeField` writes `Float32` values. -/
def be4 (n : Nat) : List Nat :=
  [leByte n 3, leByte n 2, leByte n 1, leByte n 0]

/-- `MagicHeader = 0x5A4C4F47` ("ZLOG") as it appears in memory after the
little-endian `*(*uint32)(p) = MagicHeader` store. -/
def magicBytes : List Nat := [0x47, 0x4F, 0x4C, 0x5A]

/-- The 32-bit little-endian load `*(*uint32)(&b[0])` used for the magic check. -/
def u32le (b0 b1 b2 b3 : Nat) : Nat :=
  b0 ||| b1 <<< 8 ||| b2 <<< 16 ||| b3 <<< 24

/-- The 16-bit little-endian load `*(*uint16)(&b[14])`. -/
def u16le (b0 b1 : Nat) : Nat := b0 ||| b1 <<< 8

/-- The 64-bit little-endian load `*(*uint64)(&b[i])`. -/
def u64le (b0 b1 b2 b3 b4 b5 b6 b7 : Nat) : Nat :=
  b0 ||| b1 <<< 8 ||| b2 <<< 16 ||| b3 <<< 24 |||
  b4 <<< 32 ||| b5 <<< 40 ||| b6 <<< 48 ||| b7 <<< 56

/-- Big-endian 64-bit recombination
`uint64(b[pos])<<56 | ... | uint64(b[pos+7])` from `decodeFieldValueBuf`. -/
def u64be (b0 b1 b2 b3 b4 b5 b6 b7 : Nat) : Nat :=
  b0 <<< 56 ||| b1 <<< 48 ||| b2 <<< 40 ||| b3 <<< 32 |||
  b4 <<< 24 ||| b5 <<< 16 ||| b6 <<< 8 ||| b7

/-- Big-endian 32-bit recombination from `decodeFieldValueBuf`. -/
def u32be (b0 b1 b2 b3 : Nat) : Nat :=
  b0 <<< 24 ||| b1 <<< 16 ||| b2 <<< 8 ||| b3

/-- Big-endian 16-bit length prefix recombination
`uint16(b[pos])<<8 | uint16(b[pos+1])`. -/
def u16be (b0 b1 : Nat) : Nat := b0 <<< 8 ||| b1

theorem leByte_lt (n i : Nat) : leByte n i < 256 := by
  simp only [leByte]; exact Nat.mod_lt _ (by norm_num)

/-- Disjoint-or is addition: or-ing a shifted value with a small value. -/
theorem shiftLeft_or_eq_add {a b k : Nat} (hb : b < 2 ^ k) :
    a <<< k ||| b = a * 2 ^ k + b := by
  induction k generalizing b with
  | zero =>
    have hb0 : b = 0 := by simpa using hb
    subst hb0
    simp [Nat.shiftLeft_eq]
  | succ k ih =>
    have hpow : (2 : Nat) ^ (k + 1) = 2 * 2 ^ k := by ring
    have hb2 : b / 2 < 2 ^ k := by omega
    have hrepr : Nat.bit (decide (b % 2 = 1)) (b >>> 1) = b :=
      Nat.bit_decide_mod_two_eq_one_shiftRight_one b
    have hsl : a <<< (k + 1) = Nat.bit false (a <<< k) := by
      rw [Nat.bit_val]
      simp only [Nat.shiftLeft_eq, Bool.toNat_false, Nat.add_zero, Nat.pow_succ]
      ring
    have key : a <<< (k + 1) ||| b = Nat.bit (decide (b % 2 = 1)) (a * 2 ^ k + b / 2) := by
      conv_lhs => rw [hsl, ← hrepr]
      rw [Nat.lor_bit, Nat.shiftRight_one, ih hb2]
      simp
    have hmul : a * 2 ^ (k + 1) = 2 * (a * 2 ^ k) := by ring
    rw [key, Nat.bit_val, hmul]
    rcases Nat.mod_two_eq_zero_or_one b with h | h <;> simp [h] <;> omega

theorem byte_or_step (acc b k : Nat) (hacc : acc < 2 ^ k) :
    acc ||| b <<< k = b * 2 ^ k + acc := by
  rw [Nat.lor_comm]; exact shiftLeft_or_eq_add hacc

theorem leByte_eq_div (n i : Nat) : leByte n i = n / 2 ^ (8 * i) % 256 := by
  rw [leByte, Nat.shiftRight_eq_div_pow]

theorem u64le_eq_sum {b0 b1 b2 b3 b4 b5 b6 b7 : Nat}
    (h0 : b0 < 256) (h1 : b1 < 256) (h2 : b2 < 256) (h3 : b3 < 256)
    (h4 : b4 < 256) (h5 : b5 < 256) (h6 : b6 < 256) (_h7 : b7 < 256) :
    u64le b0 b1 b2 b3 b4 b5 b6 b7 =
      b0 + b1 * 2 ^ 8 + b2 * 2 ^ 16 + b3 * 2 ^ 24 + b4 * 2 ^ 32 + b5 * 2 ^ 40
        + b6 * 2 ^ 48 + b7 * 2 ^ 56 := by
  unfold u64le
  have e1 : b0 ||| b1 <<< 8 = b1 * 2 ^ 8 + b0 := byte_or_step _ _ _ (by omega)
  have e2 : b1 * 2 ^ 8 + b0 ||| b2 <<< 16 = b2 * 2 ^ 16 + (b1 * 2 ^ 8 + b0) :=
    byte_or_step _ _ _ (by omega)
  have e3 : b2 * 2 ^ 16 + (b1 * 2 ^ 8 + b0) ||| b3 <<< 24
      = b3 * 2 ^ 24 + (b2 * 2 ^ 16 + (b1 * 2 ^ 8 + b0)) := byte_or_step _ _ _ (by omega)
  have e4 : b3 * 2 ^ 24 + (b2 * 2 ^ 16 + (b1 * 2 ^ 8 + b0)) ||| b4 <<< 32
      = b4 * 2 ^ 32 + (b3 * 2 ^ 24 + (b2 * 2 ^ 16 + (b1 * 2 ^ 8 + b0))) :=
    byte_or_step _ _ _ (by omega)
  have e5 : b4 * 2 ^ 32 + (b3 * 2 ^ 24 + (b2 * 2 ^ 16 + (b1 * 2 ^ 8 + b0))) ||| b5 <<< 40
      = b5 * 2 ^ 40 + (b4 * 2 ^ 32 + (b3 * 2 ^ 24 + (b2 * 2 ^ 16 + (b1 * 2 ^ 8 + b0)))) :=
    byte_or_step _ _ _ (by omega)
  have e6 : b5 * 2 ^ 40 + (b4 * 2 ^ 32 + (b3 * 2 ^ 24 + (b2 * 2 ^ 16 + (b1 * 2 ^ 8 + b0))))
        ||| b6 <<< 48
      = b6 * 2 ^ 48 + (b5 * 2 ^ 40 + (b4 * 2 ^ 32 + (b3 * 2 ^ 24
          + (b2 * 2 ^ 16 + (b1 * 2 ^ 8 + b0))))) := byte_or_step _ _ _ (by omega)
  have e7 : b6 * 2 ^ 48 + (b5 * 2 ^ 40 + (b4 * 2 ^ 32 + (b3 * 2 ^ 24
          + (b2 * 2 ^ 16 + (b1 * 2 ^ 8 + b0))))) ||| b7 <<< 56
      = b7 * 2 ^ 56 + (b6 * 2 ^ 48 + (b5 * 2 ^ 40 + (b4 * 2 ^ 32 + (b3 * 2 ^ 24
          + (b2 * 2 ^ 16 + (b1 * 2 ^ 8 + b0)))))) := byte_or_step _ _ _ (by omega)
  rw [e1, e2, e3, e4, e5, e6, e7]
  omega

/-- The little-endian `uint64` load inverts the little-endian store. -/
theorem u64le_le8 {n : Nat} (h : n < 2 ^ 64) :
    u64le (leByte n 0) (leByte n 1) (leByte n 2) (leByte n 3)
      (leByte n 4) (leByte n 5) (leByte n 6) (leByte n 7) = n := by
  rw [u64le_eq_sum (leByte_lt n 0) (leByte_lt n 1) (leByte_lt n 2) (leByte_lt n 3)
    (leByte_lt n 4) (leByte_lt n 5) (leByte_lt n 6) (leByte_lt n 7)]
  simp only [leByte_eq_div]
  norm_num
  omega

/-- Or-ing two values whose binary supports are separated at bit `k` adds them. -/
theorem or_eq_add_lo {x y k : Nat} (hx : x % 2 ^ k = 0) (hy : y < 2 ^ k) :
    x ||| y = x + y := by
  obtain ⟨c, hc⟩ := (Nat.dvd_iff_mod_eq_zero).mpr hx
  subst hc
  rw [Nat.mul_comm, ← Nat.shiftLeft_eq, shiftLeft_or_eq_add hy, Nat.shiftLeft_eq]

theorem u64be_eq_sum {b0 b1 b2 b3 b4 b5 b6 b7 : Nat}
    (h1 : b1 < 256) (h2 : b2 < 256) (h3 : b3 < 256) (h4 : b4 < 256)
    (h5 : b5 < 256) (h6 : b6 < 256) (h7 : b7 < 256) :
    u64be b0 b1 b2 b3 b4 b5 b6 b7 =
      b0 * 2 ^ 56 + b1 * 2 ^ 48 + b2 * 2 ^ 40 + b3 * 2 ^ 32 + b4 * 2 ^ 24 + b5 * 2 ^ 16
        + b6 * 2 ^ 8 + b7 := by
  simp only [u64be, Nat.shiftLeft_eq]
  have s1 : b0 * 2 ^ 56 ||| b1 * 2 ^ 48 = b0 * 2 ^ 56 + b1 * 2 ^ 48 :=
    or_eq_add_lo (k := 56) (by omega) (by omega)
  rw [s1]
  have s2 : b0 * 2 ^ 56 + b1 * 2 ^ 48 ||| b2 * 2 ^ 40
      = b0 * 2 ^ 56 + b1 * 2 ^ 48 + b2 * 2 ^ 40 := or_eq_add_lo (k := 48) (by omega) (by omega)
  rw [s2]
  have s3 : b0 * 2 ^ 56 + b1 * 2 ^ 48 + b2 * 2 ^ 40 ||| b3 * 2 ^ 32
      = b0 * 2 ^ 56 + b1 * 2 ^ 48 + b2 * 2 ^ 40 + b3 * 2 ^ 32 :=
    or_eq_add_lo (k := 40) (by omega) (by omega)
  rw [s3]
  have s4 : b0 * 2 ^ 56 + b1 * 2 ^ 48 + b2 * 2 ^ 40 + b3 * 2 ^ 32 ||| b4 * 2 ^ 24
      = b0 * 2 ^ 56 + b1 * 2 ^ 48 + b2 * 2 ^ 40 + b3 * 2 ^ 32 + b4 * 2 ^ 24 :=
    or_eq_add_lo (k := 32) (by omega) (by omega)
  rw [s4]
  have s5 : b0 * 2 ^ 56 + b1 * 2 ^ 48 + b2 * 2 ^ 40 + b3 * 2 ^ 32 + b4 * 2 ^ 24
        ||| b5 * 2 ^ 16
      = b0 * 2 ^ 56 + b1 * 2 ^ 48 + b2 * 2 ^ 40 + b3 * 2 ^ 32 + b4 * 2 ^ 24 + b5 * 2 ^ 16 :=
    or_eq_add_lo (k := 24) (by omega) (by omega)
  rw [s5]
  have s6 : b0 * 2 ^ 56 + b1 * 2 ^ 48 + b2 * 2 ^ 40 + b3 * 2 ^ 32 + b4 * 2 ^ 24 + b5 * 2 ^ 16
        ||| b6 * 2 ^ 8
      = b0 * 2 ^ 56 + b1 * 2 ^ 48 + b2 * 2 ^ 40 + b3 * 2 ^ 32 + b4 * 2 ^ 24 + b5 * 2 ^ 16
          + b6 * 2 ^ 8 := or_eq_add_lo (k := 16) (by omega) (by omega)
  rw [s6]
  exact or_eq_add_lo (k := 8) (by omega) (by omega)

/-- The big-endian 64-bit field-value decode inverts the big-endian encode. -/
theorem u64be_be8 {n : Nat} (h : n < 2 ^ 64) :
    u64be (leByte n 7) (leByte n 6) (leByte n 5) (leByte n 4)
      (leByte n 3) (leByte n 2) (leByte n 1) (leByte n 0) = n := by
  rw [u64be_eq_sum (leByte_lt n 6) (leByte_lt n 5) (leByte_lt n 4) (leByte_lt n 3)
    (leByte_lt n 2) (leByte_lt n 1) (leByte_lt n 0)]
  simp only [leByte_eq_div]
  norm_num
  omega

theorem u16le_eq_sum {b0 b1 : Nat} (h0 : b0 < 256) :
    u16le b0 b1 = b0 + b1 * 2 ^ 8 := by
  unfold u16le
  have e1 : b0 ||| b1 <<< 8 = b1 * 2 ^ 8 + b0 := byte_or_step _ _ _ (by omega)
  omega

/-- The 16-bit little-endian load at offset 14 of a structured record reads
the low 16 bits of the stored timestamp. -/
theorem u16le_le_bytes (n : Nat) :
    u16le (leByte n 0) (leByte n 1) = n % 2 ^ 16 := by
  rw [u16le_eq_sum (leByte_lt n 0)]
  simp only [leByte_eq_div]
  norm_num
  omega

theorem u16be_eq_sum {b1 : Nat} (b0 : Nat) (_h1 : b1 < 256) :
    u16be b0 b1 = b0 * 2 ^ 8 + b1 := by
  unfold u16be
  exact shiftLeft_or_eq_add _h1

/-- The big-endian 16-bit length-prefix decode inverts the encode for values
that fit in 16 bits. -/
theorem u16be_prefix {n : Nat} (h : n < 2 ^ 16) :
    u16be (n >>> 8 % 256) (n % 256) = n := by
  rw [u16be_eq_sum _ (by omega)]
  rw [Nat.shiftRight_eq_div_pow]
  omega

theorem u32be_eq_sum {b0 b1 b2 b3 : Nat}
    (h1 : b1 < 256) (h2 : b2 < 256) (h3 : b3 < 256) :
    u32be b0 b1 b2 b3 = b0 * 2 ^ 24 + b1 * 2 ^ 16 + b2 * 2 ^ 8 + b3 := by
  simp only [u32be, Nat.shiftLeft_eq]
  have s1 : b0 * 2 ^ 24 ||| b1 * 2 ^ 16 = b0 * 2 ^ 24 + b1 * 2 ^ 16 :=
    or_eq_add_lo (k := 24) (by omega) (by omega)
  rw [s1]
  have s2 : b0 * 2 ^ 24 + b1 * 2 ^ 16 ||| b2 * 2 ^ 8
      = b0 * 2 ^ 24 + b1 * 2 ^ 16 + b2 * 2 ^ 8 := or_eq_add_lo (k := 16) (by omega) (by omega)
  rw [s2]
  exact or_eq_add_lo (k := 8) (by omega) (by omega)

/-- The big-endian 32-bit float-bits decode inverts the encode for values
that fit in 32 bits. -/
theorem u32be_be4 {n : Nat} (h : n < 2 ^ 32) :
    u32be (leByte n 3) (leByte n 2) (leByte n 1) (leByte n 0) = n := by
  rw [u32be_eq_sum (leByte_lt n 2) (leByte_lt n 1) (leByte_lt n 0)]
  simp only [leByte_eq_div]
  norm_num
  omega

/-- The little-endian 32-bit magic load inverts the magic byte layout. -/
theorem u32le_magic : u32le 0x47 0x4F 0x4C 0x5A = 0x5A4C4F47 := by decide

/-! ## Wire codec: field model and the structured encoder (`fields.go`)

A `Field` mirrors the Go `Field` struct as populated by the typed
constructors `Int/Uint/Float32/Float64/String/Bool/Bytes`: the key string
as its bytes, and the union payload as the constructor stores it (`num`
holds the 64-bit integer image, `str`/`ptr`+`num` hold the
string/bytes payload). -/

inductive FieldVal where
  | fint (bits : Nat)
  | fuint (bits : Nat)
  | ffloat32 (bits : Nat)
  | ffloat64 (bits : Nat)
  | fstr (s : List Nat)
  | fbool (b : Bool)
  | fbytes (bs : List Nat)
  deriving DecidableEq, Repr

structure Field where
  key : List Nat
  val : FieldVal
  deriving DecidableEq, Repr

/-- The `FieldType` constants of `fields.go`
(`Int = 0, Uint = 1, Float32 = 2, Float64 = 3, String = 4, Bool = 5, Bytes = 6`). -/
def FieldVal.typeCode : FieldVal → Nat
  | .fint _ => 0
  | .fuint _ => 1
  | .ffloat32 _ => 2
  | .ffloat64 _ => 3
  | .fstr _ => 4
  | .fbool _ => 5
  | .fbytes _ => 6

/-- The value part of `encodeField`: the switch on `f.Type`, with `avail`
the space remaining in the target slice after the key and type byte
(`len(buf) - pos`).  An empty result models the truncation paths that
`return pos` before writing the value. -/
def encodeVal (avail : Nat) : FieldVal → List Nat
  | .fint bits => if avail < 8 then [] else be8 bits
  | .fuint bits => if avail < 8 then [] else be8 bits
  | .fbool b => if avail < 8 then [] else be8 (cond b 1 0)
  | .ffloat32 bits => if avail < 4 then [] else be4 (bits % 2 ^ 32)
  | .ffloat64 bits => if avail < 8 then [] else be8 bits
  | .fstr s =>
    if avail < 2 then []
    else
      let strLen := min (min s.length (avail - 2)) 65535
      strLen >>> 8 % 256 :: strLen % 256 :: s.take strLen
  | .fbytes bs =>
    if avail < 2 then []
    else
      let dataLen := min (min bs.length (avail - 2)) 65535
      dataLen >>> 8 % 256 :: dataLen % 256 :: (if 0 < dataLen then bs.take dataLen else [])

/-- `encodeField(buf, f)` of `fields.go`, with `avail = len(buf)`; the
result is the bytes written at `buf[0:returned pos]`. -/
def encodeField (avail : Nat) (f : Field) : List Nat :=
  if avail < 10 then []
  else
    let keyLen := min (min f.key.length 255) (avail - 2)
    keyLen :: (f.key.take keyLen ++ f.val.typeCode :: encodeVal (avail - (keyLen + 2)) f.val)

/-- The untruncated field-value encoding (what `encodeField` emits when the
buffer has room). -/
def encodeValI : FieldVal → List Nat
  | .fint bits => be8 bits
  | .fuint bits => be8 bits
  | .fbool b => be8 (cond b 1 0)
  | .ffloat32 bits => be4 (bits % 2 ^ 32)
  | .ffloat64 bits => be8 bits
  | .fstr s => s.length >>> 8 % 256 :: s.length % 256 :: s
  | .fbytes bs => bs.length >>> 8 % 256 :: bs.length % 256 :: bs

/-- The untruncated field encoding `keyLen(1) key type(1) value`. -/
def encodeFieldI (f : Field) : List Nat :=
  f.key.length :: (f.key ++ f.val.typeCode :: encodeValI f.val)

/-- Well-formedness of a field as the Go constructors produce it: the
payloads fit their wire widths. -/
def FieldVal.wf : FieldVal → Prop
  | .fint bits => bits < 2 ^ 64
  | .fuint bits => bits < 2 ^ 64
  | .ffloat32 bits => bits < 2 ^ 32
  | .ffloat64 bits => bits < 2 ^ 64
  | .fstr s => s.length ≤ 65535
  | .fbool _ => True
  | .fbytes bs => bs.length ≤ 65535

def Field.wf (f : Field) : Prop := f.key.length ≤ 255 ∧ f.val.wf

theorem encodeVal_eq_ideal {avail : Nat} {v : FieldVal} (hwf : v.wf)
    (hlen : (encodeValI v).length ≤ avail) : encodeVal avail v = encodeValI v := by
  cases v with
  | fint bits =>
    simp only [encodeValI, be8, List.length_cons, List.length_nil] at hlen
    simp only [encodeVal]
    rw [if_neg (by omega)]
    rfl
  | fuint bits =>
    simp only [encodeValI, be8, List.length_cons, List.length_nil] at hlen
    simp only [encodeVal]
    rw [if_neg (by omega)]
    rfl
  | fbool b =>
    simp only [encodeValI, be8, List.length_cons, List.length_nil] at hlen
    simp only [encodeVal]
    rw [if_neg (by omega)]
    rfl
  | ffloat32 bits =>
    simp only [encodeValI, be4, List.length_cons, List.length_nil] at hlen
    simp only [encodeVal]
    rw [if_neg (by omega)]
    rfl
  | ffloat64 bits =>
    simp only [encodeValI, be8, List.length_cons, List.length_nil] at hlen
    simp only [encodeVal]
    rw [if_neg (by omega)]
    rfl
  | fstr s =>
    simp only [FieldVal.wf] at hwf
    simp only [encodeValI, List.length_cons] at hlen
    simp only [encodeVal]
    rw [if_neg (by omega)]
    have hmin : min (min s.length (avail - 2)) 65535 = s.length := by omega
    simp only [hmin, List.take_length]
    rfl
  | fbytes bs =>
    simp only [FieldVal.wf] at hwf
    simp only [encodeValI, List.length_cons] at hlen
    simp only [encodeVal]
    rw [if_neg (by omega)]
    have hmin : min (min bs.length (avail - 2)) 65535 = bs.length := by omega
    simp only [hmin]
    cases bs <;> simp [encodeValI]

theorem encodeFieldI_length (f : Field) :
    (encodeFieldI f).length = 2 + f.key.length + (encodeValI f.val).length := by
  simp [encodeFieldI]
  omega

theorem encodeField_eq_ideal {avail : Nat} {f : Field} (hwf : f.wf)
    (hlen : (encodeFieldI f).length ≤ avail) (h10 : 10 ≤ avail) :
    encodeField avail f = encodeFieldI f := by
  obtain ⟨hkey, hval⟩ := hwf
  have hflen := encodeFieldI_length f
  have hmin : min (min f.key.length 255) (avail - 2) = f.key.length := by omega
  simp only [encodeField]
  rw [if_neg (by omega)]
  simp only [hmin, List.take_length]
  rw [encodeVal_eq_ideal hval (by omega)]
  rfl

/-- `writeBinaryHeader` (`fields.go`): magic, version `1`, level byte,
sequence and timestamp stored as little-endian 64-bit words; 22 bytes. -/
def header22 (level seq ts : Nat) : List Nat :=
  magicBytes ++ [1, level % 256] ++ le8 seq ++ le8 ts

/-- The field loop of `formatStructuredMessage`: `pos` is the write cursor
into a buffer of length `bufLen`; a field is encoded only while
`pos < len(buf)-64`. -/
def encodeFieldsLoop (bufLen : Nat) : Nat → List Field → List Nat
  | _, [] => []
  | pos, f :: fs =>
    if pos < bufLen - 64 then
      let e := encodeField (bufLen - pos) f
      e ++ encodeFieldsLoop bufLen (pos + e.length) fs
    else []

/-- `formatStructuredMessage` (`fields.go`): structured header, 1-byte
message length (message truncated to 255 bytes), message, 1-byte field
count (capped at 255), encoded fields.  `bufLen` is `len(buf)`. -/
def formatStructuredMessage (bufLen level seq ts : Nat) (msg : List Nat)
    (fields : List Field) : List Nat :=
  let msgLen := min msg.length 255
  let fieldCount := min fields.length 255
  header22 level seq ts ++ msgLen :: (msg.take msgLen ++ fieldCount ::
    encodeFieldsLoop bufLen (24 + msgLen) (fields.take fieldCount))

/-- `Logger.formatMessage` (basic 16-byte header layout): magic, version,
level, timestamp little-endian, `uint16(len(msg))` little-endian at
offset 14, then the whole message (no truncation). -/
def formatMessage (level ts : Nat) (msg : List Nat) : List Nat :=
  magicBytes ++ [1, level % 256] ++ le8 ts
    ++ [leByte (msg.length % 65536) 0, leByte (msg.length % 65536) 1] ++ msg

/-- `UltimateLogger.log`/`formatUltimateMessage` (`ultimate_zero.go`):
structured 22-byte header, then a 1-byte message length where the message
is truncated to 200 bytes. -/
def formatUltimateMessage (level seq ts : Nat) (msg : List Nat) : List Nat :=
  let msgLen := min msg.length 200
  magicBytes ++ [1, level % 256] ++ le8 seq ++ le8 ts ++ msgLen :: msg.take msgLen

/-! ## Decoder: `TerminalWriter.Write` and `decodeFieldValueBuf`
(`src/unnamed/part_004`)

The decoder is modelled structurally: instead of the rendered text we keep,
for each decoded piece, the value the renderer receives (the recombined
integer / float bits / sliced payload, or a placeholder standing for the
`'?'` the renderer appends on a truncated or unknown value).  Every index
into the input goes through `b[i]?` inside the `Option` monad, so `none`
marks an out-of-range access; the safety theorem shows `none` is never
returned. -/

inductive DVal where
  | dint (v : Nat)
  | duint (v : Nat)
  | dbool (b : Bool)
  | dfloat32 (bits : Nat)
  | dfloat64 (bits : Nat)
  | dstr (s : List Nat)
  | dbytes (bs : List Nat)
  | dplaceholder
  deriving DecidableEq, Repr

/-- One decoded `key=value` group: key bytes, raw type byte, value. -/
structure PField where
  key : List Nat
  ftype : Nat
  val : DVal
  deriving DecidableEq, Repr

/-- The information `TerminalWriter.Write` extracts from a record. -/
structure DRecord where
  level : Nat
  timestamp : Nat
  isBasic : Bool
  msg : List Nat
  fields : List PField
  deriving DecidableEq, Repr

/-- A checked 2-byte little-endian load `*(*uint16)(&b[i])`. -/
def read16le (b : List Nat) (i : Nat) : Option Nat := do
  let x0 ← b[i]?
  let x1 ← b[i + 1]?
  some (u16le x0 x1)

/-- A checked 4-byte little-endian load `*(*uint32)(&b[i])`. -/
def read32le (b : List Nat) (i : Nat) : Option Nat := do
  let x0 ← b[i]?
  let x1 ← b[i + 1]?
  let x2 ← b[i + 2]?
  let x3 ← b[i + 3]?
  some (u32le x0 x1 x2 x3)

/-- A checked 8-byte little-endian load `*(*uint64)(&b[i])`. -/
def read64le (b : List Nat) (i : Nat) : Option Nat := do
  let x0 ← b[i]?
  let x1 ← b[i + 1]?
  let x2 ← b[i + 2]?
  let x3 ← b[i + 3]?
  let x4 ← b[i + 4]?
  let x5 ← b[i + 5]?
  let x6 ← b[i + 6]?
  let x7 ← b[i + 7]?
  some (u64le x0 x1 x2 x3 x4 x5 x6 x7)

/-- `decodeFieldValueBuf(buf, b, pos, fieldType)`: returns the decoded
value and the new cursor. -/
def decodeFieldValueBuf (b : List Nat) (pos : Nat) (ft : Nat) :
    Option (DVal × Nat) :=
  if ft = 0 then
    if b.length - pos < 8 then some (.dplaceholder, pos + 8)
    else do
      let x0 ← b[pos]?
      let x1 ← b[pos + 1]?
      let x2 ← b[pos + 2]?
      let x3 ← b[pos + 3]?
      let x4 ← b[pos + 4]?
      let x5 ← b[pos + 5]?
      let x6 ← b[pos + 6]?
      let x7 ← b[pos + 7]?
      some (.dint (u64be x0 x1 x2 x3 x4 x5 x6 x7), pos + 8)
  else if ft = 1 ∨ ft = 5 then
    if b.length - pos < 8 then some (.dplaceholder, pos + 8)
    else do
      let x0 ← b[pos]?
      let x1 ← b[pos + 1]?
      let x2 ← b[pos + 2]?
      let x3 ← b[pos + 3]?
      let x4 ← b[pos + 4]?
      let x5 ← b[pos + 5]?
      let x6 ← b[pos + 6]?
      let x7 ← b[pos + 7]?
      let v := u64be x0 x1 x2 x3 x4 x5 x6 x7
      if ft = 5 then
        if v = 0 then some (.dbool false, pos + 8) else some (.dbool true, pos + 8)
      else some (.duint v, pos + 8)
  else if ft = 2 then
    if b.length - pos < 4 then some (.dplaceholder, pos + 4)
    else do
      let x0 ← b[pos]?
      let x1 ← b[pos + 1]?
      let x2 ← b[pos + 2]?
      let x3 ← b[pos + 3]?
      some (.dfloat32 (u32be x0 x1 x2 x3), pos + 4)
  else if ft = 3 then
    if b.length - pos < 8 then some (.dplaceholder, pos + 8)
    else do
      let x0 ← b[pos]?
      let x1 ← b[pos + 1]?
      let x2 ← b[pos + 2]?
      let x3 ← b[pos + 3]?
      let x4 ← b[pos + 4]?
      let x5 ← b[pos + 5]?
      let x6 ← b[pos + 6]?
      let x7 ← b[pos + 7]?
      some (.dfloat64 (u64be x0 x1 x2 x3 x4 x5 x6 x7), pos + 8)
  else if ft = 4 then
    if b.length - pos < 2 then some (.dplaceholder, pos + 2)
    else do
      let x0 ← b[pos]?
      let x1 ← b[pos + 1]?
      let slen := u16be x0 x1
      if b.length - pos < 2 + slen then some (.dplaceholder, pos + 2 + slen)
      else some (.dstr ((b.drop (pos + 2)).take slen), pos + 2 + slen)
  else if ft = 6 then
    if b.length - pos < 2 then some (.dplaceholder, pos + 2)
    else do
      let x0 ← b[pos]?
      let x1 ← b[pos + 1]?
      let blen := u16be x0 x1
      if b.length - pos < 2 + blen then some (.dplaceholder, pos + 2 + blen)
      else some (.dbytes ((b.drop (pos + 2)).take blen), pos + 2 + blen)
  else some (.dplaceholder, pos)

/-- The field loop of `TerminalWriter.Write`
(`for i := 0; i < fieldCount && pos < len(b); i++`); a `break` keeps the
fields decoded so far. -/
def parseFieldsLoop (b : List Nat) : Nat → Nat → Option (List PField)
  | _, 0 => some []
  | pos, count + 1 =>
    if pos < b.length then do
      let keyLen ← b[pos]?
      let pos1 := pos + 1
      if pos1 + keyLen > b.length then some []
      else
        let key := (b.drop pos1).take keyLen
        let pos2 := pos1 + keyLen
        if b.length ≤ pos2 then some []
        else do
          let ft ← b[pos2]?
          let r ← decodeFieldValueBuf b (pos2 + 1) ft
          let rest ← parseFieldsLoop b r.2 count
          some (⟨key, ft, r.1⟩ :: rest)
    else some []

/-- The tail of `TerminalWriter.Write` after header classification: slice
the message, then decode the field block when present. -/
def finishDecode (b : List Nat) (level ts : Nat) (isBasic : Bool)
    (msgStart msgLen : Nat) : Option (Except String DRecord) :=
  let msg := (b.drop msgStart).take msgLen
  let pos := msgStart + msgLen
  if pos < b.length then do
    let fc ← b[pos]?
    let fields ← parseFieldsLoop b (pos + 1) fc
    some (.ok ⟨level, ts, isBasic, msg, fields⟩)
  else some (.ok ⟨level, ts, isBasic, msg, []⟩)

/-- `TerminalWriter.Write(b)`: magic check, heuristic Basic/Structured
classification by the `uint16` at offset 14, then message and fields. -/
def decodeRecord (b : List Nat) : Option (Except String DRecord) :=
  if b.length < 16 then some (.error "invalid log entry: too short")
  else do
    let magic ← read32le b 0
    if magic ≠ 0x5A4C4F47 then some (.error "invalid magic header")
    else do
      let level ← b[5]?
      if 16 ≤ b.length then do
        let possibleMsgLen ← read16le b 14
        if 0 < possibleMsgLen ∧ possibleMsgLen ≤ 65535 ∧ 16 + possibleMsgLen ≤ b.length then do
          let ts ← read64le b 6
          finishDecode b level ts true 16 possibleMsgLen
        else if 23 ≤ b.length then do
          let pm ← b[22]?
          if 23 + pm ≤ b.length then do
            let ts ← read64le b 14
            finishDecode b level ts false 23 pm
          else some (.error "invalid log entry: cannot determine format")
        else some (.error "invalid log entry: message truncated")
      else some (.error "invalid log format: too short")

/-! ## RingBuffer and AsyncWriterV2 (`async_writer_generic.go`)

Sequential semantics of the lock-free ring: `head`/`tail` are the stored
(already masked) index values, `buf` the slot array.  `Get`'s
compare-and-swap always succeeds in a sequential execution and its spin
read returns whatever the claimed slot holds. -/

/-- The bit-smearing core of `nextPowerOf2` applied to `n--` (the function
body between the decrement and the increment), for nonnegative inputs. -/
def smear64 (n : Nat) : Nat :=
  let n1 := n ||| n >>> 1
  let n2 := n1 ||| n1 >>> 2
  let n3 := n2 ||| n2 >>> 4
  let n4 := n3 ||| n3 >>> 8
  let n5 := n4 ||| n4 >>> 16
  n5 ||| n5 >>> 32

/-- `nextPowerOf2` (`async_writer_generic.go`) for positive sizes (the
requested size of a ring; Go `int` arithmetic agrees with `Nat` there). -/
def nextPowerOf2 (n : Nat) : Nat := smear64 (n - 1) + 1

structure Ring (α : Type) where
  cap : Nat
  head : Nat
  tail : Nat
  buf : List (Option α)
  deriving Repr

/-- `NewRingBuffer(size, pool)`: capacity rounded by `nextPowerOf2`,
`mask = cap - 1`, all slots empty. -/
def Ring.init (α : Type) (size : Nat) : Ring α :=
  let c := nextPowerOf2 size
  ⟨c, 0, 0, List.replicate c none⟩

/-- `RingBuffer.Put`: fail when `(head+1)&mask == tail`, else store the
item at slot `head` and publish `head = next`. -/
def Ring.put (r : Ring α) (x : α) : Bool × Ring α :=
  let next := (r.head + 1) &&& (r.cap - 1)
  if next = r.tail then (false, r)
  else (true, { r with buf := r.buf.set r.head (some x), head := next })

/-- `RingBuffer.Get`: fail when `tail == head`, else claim slot `tail`,
read it, clear it and publish `tail = next`. -/
def Ring.get (r : Ring α) : Option α × Ring α :=
  if r.tail = r.head then (none, r)
  else
    let next := (r.tail + 1) &&& (r.cap - 1)
    (r.buf.getD r.tail none, { r with buf := r.buf.set r.tail none, tail := next })

/-- Number of enqueued, not yet dequeued items. -/
def Ring.occupancy (r : Ring α) : Nat := (r.head + r.cap - r.tail) % r.cap

inductive RingOp (α : Type) where
  | put (x : α)
  | get

def Ring.step (r : Ring α) : RingOp α → Ring α
  | .put x => (r.put x).2
  | .get => r.get.2

/-- A sequential execution: the state after running `ops` from `r`. -/
def Ring.run (r : Ring α) (ops : List (RingOp α)) : Ring α := ops.foldl Ring.step r

/-- `N` consecutive `Put`s; the flag is the conjunction of the individual
results. -/
def Ring.putAll (r : Ring α) (xs : List α) : Bool × Ring α :=
  match xs with
  | [] => (true, r)
  | x :: xs' =>
    let p := r.put x
    let q := p.2.putAll xs'
    (p.1 && q.1, q.2)

/-- `n` consecutive `Get`s, collecting the returned items. -/
def Ring.getN (r : Ring α) (n : Nat) : List (Option α) × Ring α :=
  match n with
  | 0 => ([], r)
  | n + 1 =>
    let p := r.get
    let q := p.2.getN n
    (p.1 :: q.1, q.2)

/-- `AsyncWriterV2` state: the ring of copied payloads, the `done` flag,
and the byte sequences delivered to the sink so far (in delivery order). -/
structure AW where
  ring : Ring (List Nat)
  done : Bool
  written : List (List Nat)
  deriving Repr

inductive AWResult where
  | ok (n : Nat)
  | closed
  deriving DecidableEq, Repr

/-- `AsyncWriterV2.Write(b)` run sequentially (no concurrent workers):
copy `b` into an entry, then loop `for !Put`: on a failed `Put`, return
`io.ErrClosedPipe` if `done`, otherwise help-consume one entry (forwarding
it to the sink) and retry.  `fuel` bounds the retries; `none` marks fuel
exhaustion (the Go loop spinning). -/
def AW.write (fuel : Nat) (s : AW) (b : List Nat) : Option AWResult × AW :=
  match fuel with
  | 0 => (none, s)
  | fuel + 1 =>
    let p := s.ring.put b
    if p.1 then (some (.ok b.length), { s with ring := p.2 })
    else if s.done then (some .closed, s)
    else
      let g := s.ring.get
      match g.1 with
      | some data => AW.write fuel { s with ring := g.2, written := s.written ++ [data] } b
      | none => AW.write fuel { s with ring := g.2 } b

/-! ## ObjectPool and BufferPool (`src/unnamed/part_003`)

A buffer is identified by the identity of its backing array (`id`), its
capacity and length; a fresh allocation takes a fresh `id`.  Each of the
20 size-class `sync.Pool`s is modelled sequentially as a free list. -/

structure GoBuf where
  id : Nat
  cap : Nat
  len : Nat
  deriving DecidableEq, Repr

structure BPState where
  pools : List (List GoBuf)
  nextId : Nat
  deriving Repr

def BPState.init : BPState := ⟨List.replicate 20 [], 0⟩

/-- The 64-entry lookup table `len64tab`. -/
def len64tab : List Nat :=
  [64, 63, 62, 62, 61, 61, 61, 61, 60, 60, 60, 60, 60, 60, 60, 60,
   59, 59, 59, 59, 59, 59, 59, 59, 59, 59, 59, 59, 59, 59, 59, 59,
   58, 58, 58, 58, 58, 58, 58, 58, 58, 58, 58, 58, 58, 58, 58, 58,
   58, 58, 58, 58, 58, 58, 58, 58, 58, 58, 58, 58, 58, 58, 58, 58]

/-- `leadingZeros64` as written in `part_003`: the sum of eight table
lookups over the hextets at bit offsets 58, 52, ..., 16. -/
def leadingZeros64 (x : Nat) : Nat :=
  len64tab.getD (x >>> 58) 0 +
  len64tab.getD (x >>> 52 &&& 0x3f) 0 +
  len64tab.getD (x >>> 46 &&& 0x3f) 0 +
  len64tab.getD (x >>> 40 &&& 0x3f) 0 +
  len64tab.getD (x >>> 34 &&& 0x3f) 0 +
  len64tab.getD (x >>> 28 &&& 0x3f) 0 +
  len64tab.getD (x >>> 22 &&& 0x3f) 0 +
  len64tab.getD (x >>> 16 &&& 0x3f) 0

/-- The class index `BufferPool.Get` computes, after the `idx < 0` clamp
(`bits := 64 - leadingZeros64(uint64(size-1)); idx := bits - 6`). -/
def getClassIdx (size : Nat) : Int :=
  let sz := if size = 0 then 64 else size
  let idx0 : Int := 64 - leadingZeros64 (sz - 1) - 6
  if idx0 < 0 then 0 else idx0

/-- `BufferPool.Get(size)`: class lookup with fallbacks; a pool miss
allocates a fresh class-sized buffer, and a too-small pooled buffer is
regrown by a fresh allocation through the same pointer. -/
def BPState.get (s : BPState) (size : Nat) : GoBuf × BPState :=
  let sz := if size = 0 then 64 else size
  let idx := getClassIdx size
  if 20 ≤ idx then
    (⟨s.nextId, sz, 0⟩, { s with nextId := s.nextId + 1 })
  else
    let i := idx.toNat
    match s.pools.getD i [] with
    | [] =>
      let b : GoBuf := ⟨s.nextId, 2 ^ (i + 6), 0⟩
      let s' : BPState := { s with nextId := s.nextId + 1 }
      if b.cap < sz then (⟨s'.nextId, sz, 0⟩, { s' with nextId := s'.nextId + 1 })
      else (b, s')
    | b :: rest =>
      let s' : BPState := { s with pools := s.pools.set i rest }
      if b.cap < sz then (⟨s'.nextId, sz, 0⟩, { s' with nextId := s'.nextId + 1 })
      else (b, s')

/-- `BufferPool.Put(buf)`: truncate, recompute the class from the
capacity, and pool only a buffer whose capacity is exactly the class
boundary `1 << (idx+6)` for some `0 ≤ idx < 20`. -/
def BPState.put (s : BPState) (b : GoBuf) : BPState :=
  let b' : GoBuf := { b with len := 0 }
  if b'.cap = 0 then s
  else
    let idx0 : Int := 64 - leadingZeros64 (b'.cap - 1) - 6
    if 0 ≤ idx0 ∧ idx0 < 20 ∧ b'.cap = 2 ^ (idx0.toNat + 6) then
      { s with pools := s.pools.set idx0.toNat (b' :: s.pools.getD idx0.toNat []) }
    else s

/-! ## Round-trip support lemmas -/

/-- The value the structural decoder recovers from a well-formed field. -/
def dvalOfVal : FieldVal → DVal
  | .fint n => .dint n
  | .fuint n => .duint n
  | .fbool bb => .dbool bb
  | .ffloat32 bits => .dfloat32 bits
  | .ffloat64 bits => .dfloat64 bits
  | .fstr s => .dstr s
  | .fbytes bs => .dbytes bs

/-- What `TerminalWriter.Write` should extract for an encoded field. -/
def fieldToParsed (f : Field) : PField := ⟨f.key, f.val.typeCode, dvalOfVal f.val⟩

theorem encodeValI_ne_nil (v : FieldVal) : encodeValI v ≠ [] := by
  cases v <;> simp [encodeValI, be8, be4]

theorem drop_pos_le {b m : List Nat} {pos : Nat} (hdrop : b.drop pos = m)
    (hne : m ≠ []) : pos < b.length := by
  by_contra hc
  rw [List.drop_eq_nil_of_le (by omega)] at hdrop
  exact hne hdrop.symm

theorem drop_len_eq {b m : List Nat} {pos : Nat} (hdrop : b.drop pos = m)
    (hpos : pos ≤ b.length) : b.length = pos + m.length := by
  have hq := congrArg List.length hdrop
  rw [List.length_drop] at hq
  omega

theorem drop_add {b : List Nat} {pos : Nat} {a d : List Nat}
    (h : b.drop pos = a ++ d) : b.drop (pos + a.length) = d := by
  have h2 : (b.drop pos).drop a.length = d := by rw [h, List.drop_left]
  rwa [List.drop_drop] at h2

/-- Decoding the value bytes that `encodeField` emitted recovers the field
value and advances the cursor by exactly the value length. -/
theorem decodeFieldValueBuf_encodeValI {b : List Nat} {pos : Nat} {v : FieldVal}
    (hwf : v.wf) (rest : List Nat) (hdrop : b.drop pos = encodeValI v ++ rest) :
    decodeFieldValueBuf b pos v.typeCode
      = some (dvalOfVal v, pos + (encodeValI v).length) := by
  have hpos : pos ≤ b.length :=
    Nat.le_of_lt (drop_pos_le hdrop (by simp [encodeValI_ne_nil v]))
  have hblen : b.length = pos + ((encodeValI v).length + rest.length) := by
    have := drop_len_eq hdrop hpos
    simpa using this
  have hbyte : ∀ i, b[pos + i]? = (encodeValI v ++ rest)[i]? := by
    intro i
    rw [← List.getElem?_drop, hdrop]
  cases v with
  | fint n =>
    simp only [FieldVal.wf] at hwf
    simp only [encodeValI, be8, List.length_cons, List.length_nil] at hblen ⊢
    have e0 : b[pos]? = some (leByte n 7) := by simpa [encodeValI, be8] using hbyte 0
    have e1 : b[pos + 1]? = some (leByte n 6) := by simpa [encodeValI, be8] using hbyte 1
    have e2 : b[pos + 2]? = some (leByte n 5) := by simpa [encodeValI, be8] using hbyte 2
    have e3 : b[pos + 3]? = some (leByte n 4) := by simpa [encodeValI, be8] using hbyte 3
    have e4 : b[pos + 4]? = some (leByte n 3) := by simpa [encodeValI, be8] using hbyte 4
    have e5 : b[pos + 5]? = some (leByte n 2) := by simpa [encodeValI, be8] using hbyte 5
    have e6 : b[pos + 6]? = some (leByte n 1) := by simpa [encodeValI, be8] using hbyte 6
    have e7 : b[pos + 7]? = some (leByte n 0) := by simpa [encodeValI, be8] using hbyte 7
    have hc : ¬ (b.length - pos < 8) := by omega
    simp [decodeFieldValueBuf, FieldVal.typeCode, hc, e0, e1, e2, e3, e4, e5, e6, e7,
      u64be_be8 hwf, dvalOfVal]
  | fuint n =>
    simp only [FieldVal.wf] at hwf
    simp only [encodeValI, be8, List.length_cons, List.length_nil] at hblen ⊢
    have e0 : b[pos]? = some (leByte n 7) := by simpa [encodeValI, be8] using hbyte 0
    have e1 : b[pos + 1]? = some (leByte n 6) := by simpa [encodeValI, be8] using hbyte 1
    have e2 : b[pos + 2]? = some (leByte n 5) := by simpa [encodeValI, be8] using hbyte 2
    have e3 : b[pos + 3]? = some (leByte n 4) := by simpa [encodeValI, be8] using hbyte 3
    have e4 : b[pos + 4]? = some (leByte n 3) := by simpa [encodeValI, be8] using hbyte 4
    have e5 : b[pos + 5]? = some (leByte n 2) := by simpa [encodeValI, be8] using hbyte 5
    have e6 : b[pos + 6]? = some (leByte n 1) := by simpa [encodeValI, be8] using hbyte 6
    have e7 : b[pos + 7]? = some (leByte n 0) := by simpa [encodeValI, be8] using hbyte 7
    have hc : ¬ (b.length - pos < 8) := by omega
    simp [decodeFieldValueBuf, FieldVal.typeCode, hc, e0, e1, e2, e3, e4, e5, e6, e7,
      u64be_be8 hwf, dvalOfVal]
  | fbool bb =>
    have hlt : (cond bb 1 0 : Nat) < 2 ^ 64 := by cases bb <;> norm_num
    simp only [encodeValI, be8, List.length_cons, List.length_nil] at hblen ⊢
    have e0 : b[pos]? = some (leByte (cond bb 1 0) 7) := by
      simpa [encodeValI, be8] using hbyte 0
    have e1 : b[pos + 1]? = some (leByte (cond bb 1 0) 6) := by
      simpa [encodeValI, be8] using hbyte 1
    have e2 : b[pos + 2]? = some (leByte (cond bb 1 0) 5) := by
      simpa [encodeValI, be8] using hbyte 2
    have e3 : b[pos + 3]? = some (leByte (cond bb 1 0) 4) := by
      simpa [encodeValI, be8] using hbyte 3
    have e4 : b[pos + 4]? = some (leByte (cond bb 1 0) 3) := by
      simpa [encodeValI, be8] using hbyte 4
    have e5 : b[pos + 5]? = some (leByte (cond bb 1 0) 2) := by
      simpa [encodeValI, be8] using hbyte 5
    have e6 : b[pos + 6]? = some (leByte (cond bb 1 0) 1) := by
      simpa [encodeValI, be8] using hbyte 6
    have e7 : b[pos + 7]? = some (leByte (cond bb 1 0) 0) := by
      simpa [encodeValI, be8] using hbyte 7
    have hc : ¬ (b.length - pos < 8) := by omega
    cases bb
    · simp [decodeFieldValueBuf, FieldVal.typeCode, hc, e0, e1, e2, e3, e4, e5, e6, e7,
        u64be_be8 (show (0 : Nat) < 2 ^ 64 by norm_num), dvalOfVal]
    · simp [decodeFieldValueBuf, FieldVal.typeCode, hc, e0, e1, e2, e3, e4, e5, e6, e7,
        u64be_be8 (show (1 : Nat) < 2 ^ 64 by norm_num), dvalOfVal]
  | ffloat32 bits =>
    simp only [FieldVal.wf] at hwf
    simp only [encodeValI, be4, List.length_cons, List.length_nil] at hblen ⊢
    have e0 : b[pos]? = some (leByte (bits % 2 ^ 32) 3) := by
      simpa [encodeValI, be4] using hbyte 0
    have e1 : b[pos + 1]? = some (leByte (bits % 2 ^ 32) 2) := by
      simpa [encodeValI, be4] using hbyte 1
    have e2 : b[pos + 2]? = some (leByte (bits % 2 ^ 32) 1) := by
      simpa [encodeValI, be4] using hbyte 2
    have e3 : b[pos + 3]? = some (leByte (bits % 2 ^ 32) 0) := by
      simpa [encodeValI, be4] using hbyte 3
    have hc : ¬ (b.length - pos < 4) := by omega
    have hv : u32be (leByte (bits % 2 ^ 32) 3) (leByte (bits % 2 ^ 32) 2)
        (leByte (bits % 2 ^ 32) 1) (leByte (bits % 2 ^ 32) 0) = bits := by
      rw [u32be_be4 (Nat.mod_lt _ (by norm_num))]
      exact Nat.mod_eq_of_lt hwf
    norm_num at hv
    simp [decodeFieldValueBuf, FieldVal.typeCode, hc, e0, e1, e2, e3, hv, dvalOfVal]
  | ffloat64 bits =>
    simp only [FieldVal.wf] at hwf
    simp only [encodeValI, be8, List.length_cons, List.length_nil] at hblen ⊢
    have e0 : b[pos]? = some (leByte bits 7) := by simpa [encodeValI, be8] using hbyte 0
    have e1 : b[pos + 1]? = some (leByte bits 6) := by simpa [encodeValI, be8] using hbyte 1
    have e2 : b[pos + 2]? = some (leByte bits 5) := by simpa [encodeValI, be8] using hbyte 2
    have e3 : b[pos + 3]? = some (leByte bits 4) := by simpa [encodeValI, be8] using hbyte 3
    have e4 : b[pos + 4]? = some (leByte bits 3) := by simpa [encodeValI, be8] using hbyte 4
    have e5 : b[pos + 5]? = some (leByte bits 2) := by simpa [encodeValI, be8] using hbyte 5
    have e6 : b[pos + 6]? = some (leByte bits 1) := by simpa [encodeValI, be8] using hbyte 6
    have e7 : b[pos + 7]? = some (leByte bits 0) := by simpa [encodeValI, be8] using hbyte 7
    have hc : ¬ (b.length - pos < 8) := by omega
    simp [decodeFieldValueBuf, FieldVal.typeCode, hc, e0, e1, e2, e3, e4, e5, e6, e7,
      u64be_be8 hwf, dvalOfVal]
  | fstr s =>
    simp only [FieldVal.wf] at hwf
    simp only [encodeValI, List.length_cons] at hblen ⊢
    have e0 : b[pos]? = some (s.length >>> 8 % 256) := by simpa [encodeValI] using hbyte 0
    have e1 : b[pos + 1]? = some (s.length % 256) := by simpa [encodeValI] using hbyte 1
    have hu : u16be (s.length >>> 8 % 256) (s.length % 256) = s.length :=
      u16be_prefix (by omega)
    have hdrop2 : b.drop (pos + 2) = s ++ rest := by
      have h2 : b.drop pos = [s.length >>> 8 % 256, s.length % 256] ++ (s ++ rest) := by
        simpa [encodeValI] using hdrop
      simpa using drop_add h2
    have htake : (b.drop (pos + 2)).take s.length = s := by
      rw [hdrop2]
      exact List.take_left s rest
    have hc : ¬ (b.length - pos < 2) := by omega
    have hc2 : ¬ (b.length - pos < 2 + s.length) := by omega
    simp [decodeFieldValueBuf, FieldVal.typeCode, hc, e0, e1, hu, hc2, htake, dvalOfVal]
    omega
  | fbytes bs =>
    simp only [FieldVal.wf] at hwf
    simp only [encodeValI, List.length_cons] at hblen ⊢
    have e0 : b[pos]? = some (bs.length >>> 8 % 256) := by simpa [encodeValI] using hbyte 0
    have e1 : b[pos + 1]? = some (bs.length % 256) := by simpa [encodeValI] using hbyte 1
    have hu : u16be (bs.length >>> 8 % 256) (bs.length % 256) = bs.length :=
      u16be_prefix (by omega)
    have hdrop2 : b.drop (pos + 2) = bs ++ rest := by
      have h2 : b.drop pos = [bs.length >>> 8 % 256, bs.length % 256] ++ (bs ++ rest) := by
        simpa [encodeValI] using hdrop
      simpa using drop_add h2
    have htake : (b.drop (pos + 2)).take bs.length = bs := by
      rw [hdrop2]
      exact List.take_left bs rest
    have hc : ¬ (b.length - pos < 2) := by omega
    have hc2 : ¬ (b.length - pos < 2 + bs.length) := by omega
    simp [decodeFieldValueBuf, FieldVal.typeCode, hc, e0, e1, hu, hc2, htake, dvalOfVal]
    omega

/-- Concatenation of untruncated field encodings. -/
def encCat : List Field → List Nat
  | [] => []
  | f :: fs => encodeFieldI f ++ encCat fs

/-- Parsing the field block that the encoder emitted as the final part of
the record recovers every field's key, type byte and value. -/
theorem parseFieldsLoop_encCat (fs : List Field) :
    ∀ (b : List Nat) (pos : Nat), (∀ f ∈ fs, f.wf) →
      b.drop pos = encCat fs →
      parseFieldsLoop b pos fs.length = some (fs.map fieldToParsed) := by
  induction fs with
  | nil => intro b pos _ _; rfl
  | cons f fs ih =>
    intro b pos hwf hdrop
    obtain ⟨hkey, hval⟩ := hwf f (by simp)
    have hdropA : b.drop pos
        = [f.key.length]
          ++ (f.key ++ ([f.val.typeCode] ++ (encodeValI f.val ++ encCat fs))) := by
      simpa [encCat, encodeFieldI, List.append_assoc] using hdrop
    have hpos : pos < b.length := drop_pos_le hdropA (by simp)
    have hblen : b.length
        = pos + (1 + (f.key.length + (1 + ((encodeValI f.val).length
            + (encCat fs).length)))) := by
      have h := drop_len_eq hdropA (Nat.le_of_lt hpos)
      simp at h
      omega
    have e0 : b[pos]? = some f.key.length := by
      have h := List.getElem?_drop b pos 0
      rw [hdropA] at h
      simpa using h.symm
    have d1 : b.drop (pos + 1)
        = f.key ++ ([f.val.typeCode] ++ (encodeValI f.val ++ encCat fs)) := by
      have := drop_add hdropA
      simpa using this
    have htake : (b.drop (pos + 1)).take f.key.length = f.key := by
      rw [d1]
      exact List.take_left _ _
    have d2 : b.drop (pos + 1 + f.key.length)
        = [f.val.typeCode] ++ (encodeValI f.val ++ encCat fs) := drop_add d1
    have etyc : b[pos + 1 + f.key.length]? = some f.val.typeCode := by
      have h := List.getElem?_drop b (pos + 1 + f.key.length) 0
      rw [d2] at h
      simpa using h.symm
    have d3 : b.drop (pos + 1 + f.key.length + 1) = encodeValI f.val ++ encCat fs := by
      have := drop_add d2
      simpa using this
    have hdfv := decodeFieldValueBuf_encodeValI hval (encCat fs) d3
    have d4 : b.drop (pos + 1 + f.key.length + 1 + (encodeValI f.val).length) = encCat fs :=
      drop_add d3
    have hih := ih b (pos + 1 + f.key.length + 1 + (encodeValI f.val).length)
      (fun g hg => hwf g (by simp [hg])) d4
    have hc1 : ¬ (pos + 1 + f.key.length > b.length) := by omega
    have hc2 : ¬ (b.length ≤ pos + 1 + f.key.length) := by omega
    show parseFieldsLoop b pos (fs.length + 1) = _
    simp [parseFieldsLoop, hpos, e0, hc1, hc2, htake, etyc, hdfv, hih, fieldToParsed]

theorem encCat_length_cons (f : Field) (fs : List Field) :
    (encCat (f :: fs)).length = (encodeFieldI f).length + (encCat fs).length := by
  simp [encCat]

/-- With enough slack in the buffer, the guarded field loop emits every
field untruncated. -/
theorem encodeFieldsLoop_eq_encCat (fs : List Field) :
    ∀ (pos bufLen : Nat), (∀ f ∈ fs, f.wf) →
      pos + (encCat fs).length + 65 ≤ bufLen →
      encodeFieldsLoop bufLen pos fs = encCat fs := by
  induction fs with
  | nil => intro pos bufLen _ _; rfl
  | cons f fs ih =>
    intro pos bufLen hwf hsl
    have hlen := encCat_length_cons f fs
    have hguard : pos < bufLen - 64 := by omega
    have hideal : encodeField (bufLen - pos) f = encodeFieldI f :=
      encodeField_eq_ideal (hwf f (by simp)) (by omega) (by
        have := encodeFieldI_length f
        omega)
    simp only [encodeFieldsLoop, if_pos hguard, hideal, encCat]
    rw [ih (pos + (encodeFieldI f).length) bufLen (fun g hg => hwf g (by simp [hg]))
      (by omega)]

theorem header22_length (level seq ts : Nat) : (header22 level seq ts).length = 22 := by
  simp [header22, magicBytes, le8]

/-- With a large enough buffer, `formatStructuredMessage` produces the
canonical structured record. -/
theorem formatStructuredMessage_eq {bufLen level seq ts : Nat} {msg : List Nat}
    {fields : List Field} (hm : msg.length ≤ 255) (hf : fields.length ≤ 255)
    (hwf : ∀ f ∈ fields, f.wf)
    (hbuf : 24 + msg.length + (encCat fields).length + 65 ≤ bufLen) :
    formatStructuredMessage bufLen level seq ts msg fields
      = header22 level seq ts ++ msg.length :: (msg ++ fields.length :: encCat fields) := by
  have hmin1 : min msg.length 255 = msg.length := by omega
  have hmin2 : min fields.length 255 = fields.length := by omega
  simp only [formatStructuredMessage, hmin1, hmin2, List.take_length,
    List.take_of_length_le (Nat.le_refl fields.length)]
  rw [encodeFieldsLoop_eq_encCat fields (24 + msg.length) bufLen hwf (by omega)]

theorem getElem?_some_getD {l : List Nat} {i : Nat} (h : i < l.length) :
    l[i]? = some (l.getD i 0) := by
  rw [List.getElem?_eq_getElem h]
  simp [List.getD_eq_getElem?_getD, List.getElem?_eq_getElem h]

theorem getD_of_getElem? {l : List Nat} {i v : Nat} (h : l[i]? = some v) :
    l.getD i 0 = v := by
  simp [List.getD_eq_getElem?_getD, h]

theorem read16le_eval {b : List Nat} {i : Nat} (h : i + 2 ≤ b.length) :
    read16le b i = some (u16le (b.getD i 0) (b.getD (i + 1) 0)) := by
  simp only [read16le, Option.bind_eq_bind, Option.some_bind,
    getElem?_some_getD (show i < b.length by omega),
    getElem?_some_getD (show i + 1 < b.length by omega)]

theorem read32le_eval {b : List Nat} {i : Nat} (h : i + 4 ≤ b.length) :
    read32le b i = some (u32le (b.getD i 0) (b.getD (i + 1) 0) (b.getD (i + 2) 0)
      (b.getD (i + 3) 0)) := by
  simp only [read32le, Option.bind_eq_bind, Option.some_bind,
    getElem?_some_getD (show i < b.length by omega),
    getElem?_some_getD (show i + 1 < b.length by omega),
    getElem?_some_getD (show i + 2 < b.length by omega),
    getElem?_some_getD (show i + 3 < b.length by omega)]

theorem read64le_eval {b : List Nat} {i : Nat} (h : i + 8 ≤ b.length) :
    read64le b i = some (u64le (b.getD i 0) (b.getD (i + 1) 0) (b.getD (i + 2) 0)
      (b.getD (i + 3) 0) (b.getD (i + 4) 0) (b.getD (i + 5) 0) (b.getD (i + 6) 0)
      (b.getD (i + 7) 0)) := by
  simp only [read64le, Option.bind_eq_bind, Option.some_bind,
    getElem?_some_getD (show i < b.length by omega),
    getElem?_some_getD (show i + 1 < b.length by omega),
    getElem?_some_getD (show i + 2 < b.length by omega),
    getElem?_some_getD (show i + 3 < b.length by omega),
    getElem?_some_getD (show i + 4 < b.length by omega),
    getElem?_some_getD (show i + 5 < b.length by omega),
    getElem?_some_getD (show i + 6 < b.length by omega),
    getElem?_some_getD (show i + 7 < b.length by omega)]

/-- Decoding the canonical structured record: when the 16-bit value that
the Basic-format heuristic reads at offset 14 (the low two timestamp
bytes) does not look like a plausible Basic message length, the decoder
classifies the record as Structured and recovers the level, timestamp,
message and every field. -/
theorem decodeRecord_structured_canonical {level seq ts : Nat} {msg : List Nat}
    {fields : List Field} (hlevel : level < 256) (hts : ts < 2 ^ 64)
    (hm : msg.length ≤ 255) (_hf : fields.length ≤ 255) (hwf : ∀ f ∈ fields, f.wf)
    (hclass : ts % 2 ^ 16 = 0 ∨
      (header22 level seq ts ++ msg.length :: (msg ++ fields.length :: encCat fields)).length
        < 16 + ts % 2 ^ 16) :
    decodeRecord (header22 level seq ts ++ msg.length :: (msg ++ fields.length :: encCat fields))
      = some (.ok ⟨level, ts, false, msg, fields.map fieldToParsed⟩) := by
  set B := header22 level seq ts ++ msg.length :: (msg ++ fields.length :: encCat fields)
    with hBdef
  have hhl : (header22 level seq ts).length = 22 := header22_length level seq ts
  have hble : B.length = 24 + msg.length + (encCat fields).length := by
    rw [hBdef]
    simp [hhl]
    omega
  have hacc : ∀ i : Nat, i < 22 → B[i]? = (header22 level seq ts)[i]? := by
    intro i hi
    exact List.getElem?_append_left (by omega)
  have g0 : B.getD 0 0 = 0x47 := getD_of_getElem? (by rw [hacc 0 (by omega)]; rfl)
  have g1 : B.getD 1 0 = 0x4F := getD_of_getElem? (by rw [hacc 1 (by omega)]; rfl)
  have g2 : B.getD 2 0 = 0x4C := getD_of_getElem? (by rw [hacc 2 (by omega)]; rfl)
  have g3 : B.getD 3 0 = 0x5A := getD_of_getElem? (by rw [hacc 3 (by omega)]; rfl)
  have h5 : B[5]? = some (level % 256) := by rw [hacc 5 (by omega)]; rfl
  have g14 : B.getD 14 0 = leByte ts 0 := getD_of_getElem? (by rw [hacc 14 (by omega)]; rfl)
  have g15 : B.getD 15 0 = leByte ts 1 := getD_of_getElem? (by rw [hacc 15 (by omega)]; rfl)
  have g16 : B.getD 16 0 = leByte ts 2 := getD_of_getElem? (by rw [hacc 16 (by omega)]; rfl)
  have g17 : B.getD 17 0 = leByte ts 3 := getD_of_getElem? (by rw [hacc 17 (by omega)]; rfl)
  have g18 : B.getD 18 0 = leByte ts 4 := getD_of_getElem? (by rw [hacc 18 (by omega)]; rfl)
  have g19 : B.getD 19 0 = leByte ts 5 := getD_of_getElem? (by rw [hacc 19 (by omega)]; rfl)
  have g20 : B.getD 20 0 = leByte ts 6 := getD_of_getElem? (by rw [hacc 20 (by omega)]; rfl)
  have g21 : B.getD 21 0 = leByte ts 7 := getD_of_getElem? (by rw [hacc 21 (by omega)]; rfl)
  have h22 : B[22]? = some msg.length := by
    rw [hBdef, List.getElem?_append_right (by omega)]
    simp [hhl]
  have d22 : B.drop 22 = [msg.length] ++ (msg ++ fields.length :: encCat fields) := by
    rw [hBdef]
    rw [List.drop_left' hhl]
    rfl
  have d23 : B.drop 23 = msg ++ fields.length :: encCat fields := by
    have := drop_add d22
    simpa using this
  have htake : (B.drop 23).take msg.length = msg := by
    rw [d23]
    exact List.take_left _ _
  have d23m : B.drop (23 + msg.length) = [fields.length] ++ encCat fields := by
    have := drop_add d23
    simpa using this
  have hfc : B[23 + msg.length]? = some fields.length := by
    have h := List.getElem?_drop B (23 + msg.length) 0
    rw [d23m] at h
    simpa using h.symm
  have d24 : B.drop (23 + msg.length + 1) = encCat fields := by
    have := drop_add d23m
    simpa using this
  have hparse : parseFieldsLoop B (23 + msg.length + 1) fields.length
      = some (fields.map fieldToParsed) := parseFieldsLoop_encCat fields B _ hwf d24
  have hm32 : read32le B 0 = some 0x5A4C4F47 := by
    rw [read32le_eval (by omega)]
    simp only [Nat.reduceAdd]
    rw [g0, g1, g2, g3, u32le_magic]
  have hpm16 : read16le B 14 = some (ts % 2 ^ 16) := by
    rw [read16le_eval (by omega)]
    simp only [Nat.reduceAdd]
    rw [g14, g15, u16le_le_bytes ts]
  have hts64 : read64le B 14 = some ts := by
    rw [read64le_eval (by omega)]
    simp only [Nat.reduceAdd]
    rw [g14, g15, g16, g17, g18, g19, g20, g21, u64le_le8 hts]
  have hcnot : ¬ (0 < ts % 2 ^ 16 ∧ ts % 2 ^ 16 ≤ 65535 ∧ 16 + ts % 2 ^ 16 ≤ B.length) := by
    rcases hclass with hc | hc <;> omega
  have hmagicne : ¬ ((0x5A4C4F47 : Nat) ≠ 0x5A4C4F47) := by simp
  have hlen16 : ¬ (B.length < 16) := by omega
  have hlen16b : 16 ≤ B.length := by omega
  have hlen23 : 23 ≤ B.length := by omega
  have hlen23m : 23 + msg.length ≤ B.length := by omega
  have hposlt : 23 + msg.length < B.length := by omega
  have hmod : level % 256 = level := Nat.mod_eq_of_lt hlevel
  simp only [decodeRecord, Option.bind_eq_bind, Option.some_bind, if_neg hlen16, hm32,
    if_neg hmagicne, h5, if_pos hlen16b, hpm16, if_neg hcnot, if_pos hlen23, h22,
    if_pos hlen23m, hts64, finishDecode, htake, if_pos hposlt, hfc, hparse, hmod]

/-! ## Totality of the decoder (no out-of-range access) -/

theorem decodeFieldValueBuf_isSome (b : List Nat) (pos : Nat) (ft : Nat) :
    (decodeFieldValueBuf b pos ft).isSome = true := by
  by_cases hft0 : ft = 0
  · subst hft0
    simp only [decodeFieldValueBuf, if_pos rfl]
    by_cases hl : b.length - pos < 8
    · simp [hl]
    · simp only [if_neg hl, Option.bind_eq_bind, Option.some_bind,
        getElem?_some_getD (show pos < b.length by omega),
        getElem?_some_getD (show pos + 1 < b.length by omega),
        getElem?_some_getD (show pos + 2 < b.length by omega),
        getElem?_some_getD (show pos + 3 < b.length by omega),
        getElem?_some_getD (show pos + 4 < b.length by omega),
        getElem?_some_getD (show pos + 5 < b.length by omega),
        getElem?_some_getD (show pos + 6 < b.length by omega),
        getElem?_some_getD (show pos + 7 < b.length by omega)]
      simp
  · by_cases hft15 : ft = 1 ∨ ft = 5
    · simp only [decodeFieldValueBuf, if_neg hft0, if_pos hft15]
      by_cases hl : b.length - pos < 8
      · simp [hl]
      · simp only [if_neg hl, Option.bind_eq_bind, Option.some_bind,
          getElem?_some_getD (show pos < b.length by omega),
          getElem?_some_getD (show pos + 1 < b.length by omega),
          getElem?_some_getD (show pos + 2 < b.length by omega),
          getElem?_some_getD (show pos + 3 < b.length by omega),
          getElem?_some_getD (show pos + 4 < b.length by omega),
          getElem?_some_getD (show pos + 5 < b.length by omega),
          getElem?_some_getD (show pos + 6 < b.length by omega),
          getElem?_some_getD (show pos + 7 < b.length by omega)]
        split
        · split <;> simp
        · simp
    · by_cases hft2 : ft = 2
      · subst hft2
        simp only [decodeFieldValueBuf, if_neg hft0, if_neg hft15, if_pos rfl]
        by_cases hl : b.length - pos < 4
        · simp [hl]
        · simp only [if_neg hl, Option.bind_eq_bind, Option.some_bind,
            getElem?_some_getD (show pos < b.length by omega),
            getElem?_some_getD (show pos + 1 < b.length by omega),
            getElem?_some_getD (show pos + 2 < b.length by omega),
            getElem?_some_getD (show pos + 3 < b.length by omega)]
          simp
      · by_cases hft3 : ft = 3
        · subst hft3
          simp only [decodeFieldValueBuf, if_neg hft0, if_neg hft15, if_neg hft2, if_pos rfl]
          by_cases hl : b.length - pos < 8
          · simp [hl]
          · simp only [if_neg hl, Option.bind_eq_bind, Option.some_bind,
              getElem?_some_getD (show pos < b.length by omega),
              getElem?_some_getD (show pos + 1 < b.length by omega),
              getElem?_some_getD (show pos + 2 < b.length by omega),
              getElem?_some_getD (show pos + 3 < b.length by omega),
              getElem?_some_getD (show pos + 4 < b.length by omega),
              getElem?_some_getD (show pos + 5 < b.length by omega),
              getElem?_some_getD (show pos + 6 < b.length by omega),
              getElem?_some_getD (show pos + 7 < b.length by omega)]
            simp
        · by_cases hft4 : ft = 4
          · subst hft4
            simp only [decodeFieldValueBuf, if_neg hft0, if_neg hft15, if_neg hft2,
              if_neg hft3, if_pos rfl]
            by_cases hl : b.length - pos < 2
            · simp [hl]
            · simp only [if_neg hl, Option.bind_eq_bind, Option.some_bind,
                getElem?_some_getD (show pos < b.length by omega),
                getElem?_some_getD (show pos + 1 < b.length by omega)]
              rw [if_pos trivial]
              split <;> simp
          · by_cases hft6 : ft = 6
            · subst hft6
              simp only [decodeFieldValueBuf, if_neg hft0, if_neg hft15, if_neg hft2,
                if_neg hft3, if_neg hft4, if_pos rfl]
              by_cases hl : b.length - pos < 2
              · simp [hl]
              · simp only [if_neg hl, Option.bind_eq_bind, Option.some_bind,
                  getElem?_some_getD (show pos < b.length by omega),
                  getElem?_some_getD (show pos + 1 < b.length by omega)]
                rw [if_pos trivial]
                split <;> simp
            · simp only [decodeFieldValueBuf, if_neg hft0, if_neg hft15, if_neg hft2,
                if_neg hft3, if_neg hft4, if_neg hft6]
              simp

theorem parseFieldsLoop_isSome (b : List Nat) :
    ∀ (count pos : Nat), (parseFieldsLoop b pos count).isSome = true := by
  intro count
  induction count with
  | zero => intro pos; simp [parseFieldsLoop]
  | succ n ih =>
    intro pos
    by_cases hp : pos < b.length
    · simp only [parseFieldsLoop, if_pos hp, Option.bind_eq_bind, Option.some_bind,
        getElem?_some_getD hp]
      by_cases h1 : pos + 1 + b.getD pos 0 > b.length
      · rw [if_pos h1]
        rfl
      · rw [if_neg h1]
        by_cases h2 : b.length ≤ pos + 1 + b.getD pos 0
        · rw [if_pos h2]
          rfl
        · rw [if_neg h2]
          simp only [Option.bind_eq_bind, Option.some_bind,
            getElem?_some_getD (show pos + 1 + b.getD pos 0 < b.length by omega)]
          obtain ⟨r, hr⟩ := Option.isSome_iff_exists.mp
            (decodeFieldValueBuf_isSome b (pos + 1 + b.getD pos 0 + 1)
              (b.getD (pos + 1 + b.getD pos 0) 0))
          rw [hr]
          simp only [Option.some_bind]
          obtain ⟨rest, hrest⟩ := Option.isSome_iff_exists.mp (ih r.2)
          rw [hrest]
          rfl
    · simp [parseFieldsLoop, hp]

theorem finishDecode_isSome (b : List Nat) (level ts : Nat) (isB : Bool)
    (msgStart msgLen : Nat) : (finishDecode b level ts isB msgStart msgLen).isSome = true := by
  unfold finishDecode
  by_cases hp : msgStart + msgLen < b.length
  · simp only [if_pos hp, Option.bind_eq_bind, Option.some_bind, getElem?_some_getD hp]
    obtain ⟨fsv, hfs⟩ := Option.isSome_iff_exists.mp
      (parseFieldsLoop_isSome b (b.getD (msgStart + msgLen) 0) (msgStart + msgLen + 1))
    rw [hfs]
    simp
  · simp [hp]

/-- The decoder is total: every slice access `TerminalWriter.Write` and
`decodeFieldValueBuf` perform on any input is in bounds, so for every byte
sequence the decoder produces either a decoded record or a decode error
and never a panic. -/
theorem decodeRecord_isSome (b : List Nat) : (decodeRecord b).isSome = true := by
  unfold decodeRecord
  by_cases h16 : b.length < 16
  · simp [h16]
  · simp only [if_neg h16]
    rw [read32le_eval (by omega)]
    simp only [Option.bind_eq_bind, Option.some_bind]
    split
    · simp
    · simp only [Option.bind_eq_bind, Option.some_bind,
        getElem?_some_getD (show 5 < b.length by omega), if_pos (show 16 ≤ b.length by omega)]
      rw [read16le_eval (by omega)]
      simp only [Option.some_bind]
      split
      · rw [read64le_eval (by omega)]
        simp only [Option.some_bind]
        exact finishDecode_isSome b _ _ _ _ _
      · split
        · simp only [Option.bind_eq_bind, Option.some_bind,
            getElem?_some_getD (show 22 < b.length by omega)]
          split
          · rw [read64le_eval (by omega)]
            simp only [Option.some_bind]
            exact finishDecode_isSome b _ _ _ _ _
          · simp
        · simp

/-! ## `nextPowerOf2` computes the least power of two bound -/

theorem orShift_testBit {x n m : Nat}
    (hx : ∀ i, x.testBit i = true ↔ ∃ d, d < m ∧ n.testBit (i + d) = true) (i : Nat) :
    (x ||| x >>> m).testBit i = true ↔ ∃ d, d < 2 * m ∧ n.testBit (i + d) = true := by
  rw [Nat.testBit_lor, Nat.testBit_shiftRight, Bool.or_eq_true, hx i, hx (m + i)]
  constructor
  · rintro (⟨d, hd, hb⟩ | ⟨d, hd, hb⟩)
    · exact ⟨d, by omega, hb⟩
    · exact ⟨m + d, by omega, by rwa [show i + (m + d) = m + i + d by omega]⟩
  · rintro ⟨d, hd, hb⟩
    by_cases hdm : d < m
    · exact Or.inl ⟨d, hdm, hb⟩
    · exact Or.inr ⟨d - m, by omega, by rwa [show m + i + (d - m) = i + d by omega]⟩

theorem smear64_testBit (n : Nat) (i : Nat) :
    (smear64 n).testBit i = true ↔ ∃ d, d < 64 ∧ n.testBit (i + d) = true := by
  have h0 : ∀ i, n.testBit i = true ↔ ∃ d, d < 1 ∧ n.testBit (i + d) = true := by
    intro j
    constructor
    · intro h
      exact ⟨0, by omega, by simpa using h⟩
    · rintro ⟨d, hd, h⟩
      have hd0 : d = 0 := by omega
      subst hd0
      simpa using h
  have h1 := fun j => orShift_testBit (m := 1) h0 j
  have h1b : ∀ j, (n ||| n >>> 1).testBit j = true
      ↔ ∃ d, d < 2 ∧ n.testBit (j + d) = true := by
    intro j
    rw [h1 j]
  have h2 := fun j => orShift_testBit (m := 2) h1b j
  have h2b : ∀ j, ((n ||| n >>> 1) ||| (n ||| n >>> 1) >>> 2).testBit j = true
      ↔ ∃ d, d < 4 ∧ n.testBit (j + d) = true := by
    intro j
    rw [h2 j]
  have h3 := fun j => orShift_testBit (m := 4) h2b j
  have h3b : ∀ j, (((n ||| n >>> 1) ||| (n ||| n >>> 1) >>> 2)
        ||| ((n ||| n >>> 1) ||| (n ||| n >>> 1) >>> 2) >>> 4).testBit j = true
      ↔ ∃ d, d < 8 ∧ n.testBit (j + d) = true := by
    intro j
    rw [h3 j]
  have h4 := fun j => orShift_testBit (m := 8) h3b j
  have h4b : ∀ j, ((((n ||| n >>> 1) ||| (n ||| n >>> 1) >>> 2)
          ||| ((n ||| n >>> 1) ||| (n ||| n >>> 1) >>> 2) >>> 4)
        ||| (((n ||| n >>> 1) ||| (n ||| n >>> 1) >>> 2)
          ||| ((n ||| n >>> 1) ||| (n ||| n >>> 1) >>> 2) >>> 4) >>> 8).testBit j = true
      ↔ ∃ d, d < 16 ∧ n.testBit (j + d) = true := by
    intro j
    rw [h4 j]
  have h5 := fun j => orShift_testBit (m := 16) h4b j
  have h5b : ∀ j, (((((n ||| n >>> 1) ||| (n ||| n >>> 1) >>> 2)
            ||| ((n ||| n >>> 1) ||| (n ||| n >>> 1) >>> 2) >>> 4)
          ||| (((n ||| n >>> 1) ||| (n ||| n >>> 1) >>> 2)
            ||| ((n ||| n >>> 1) ||| (n ||| n >>> 1) >>> 2) >>> 4) >>> 8)
        ||| ((((n ||| n >>> 1) ||| (n ||| n >>> 1) >>> 2)
            ||| ((n ||| n >>> 1) ||| (n ||| n >>> 1) >>> 2) >>> 4)
          ||| (((n ||| n >>> 1) ||| (n ||| n >>> 1) >>> 2)
            ||| ((n ||| n >>> 1) ||| (n ||| n >>> 1) >>> 2) >>> 4) >>> 8) >>> 16).testBit j = true
      ↔ ∃ d, d < 32 ∧ n.testBit (j + d) = true := by
    intro j
    rw [h5 j]
  have h6 := fun j => orShift_testBit (m := 32) h5b j
  have h6b := h6 i
  simp only [smear64]
  rw [h6b]

theorem testBit_size_sub_one {n : Nat} (hn : 0 < n) :
    n.testBit (n.size - 1) = true := by
  have hsz : 0 < n.size := Nat.size_pos.mpr hn
  have h1 : 2 ^ (n.size - 1) ≤ n := Nat.lt_size.mp (by omega)
  have h2 : n < 2 ^ n.size := Nat.lt_size_self n
  have hpow : 2 ^ n.size = 2 ^ (n.size - 1) * 2 := by
    rw [← Nat.pow_succ]
    congr 1
    omega
  have hdiv : n / 2 ^ (n.size - 1) = 1 := by
    have hlo : 1 ≤ n / 2 ^ (n.size - 1) := (Nat.one_le_div_iff (Nat.two_pow_pos _)).mpr h1
    have hhi : n / 2 ^ (n.size - 1) < 2 := by
      rw [Nat.div_lt_iff_lt_mul (Nat.two_pow_pos _)]
      omega
    omega
  rw [Nat.testBit_to_div_mod, hdiv]
  rfl

/-- The bit-smear fills every position below the most significant bit. -/
theorem smear64_eq {n : Nat} (h : n < 2 ^ 63) : smear64 n = 2 ^ n.size - 1 := by
  have hiff : ∀ i, ((smear64 n).testBit i = true ↔ i < n.size) := by
    intro i
    rw [smear64_testBit n i]
    constructor
    · rintro ⟨d, _, hb⟩
      have hge : 2 ^ (i + d) ≤ n := Nat.testBit_implies_ge hb
      have := Nat.lt_size.mpr hge
      omega
    · intro hi
      have hn0 : 0 < n := by
        by_contra hc
        have : n = 0 := by omega
        subst this
        simp [Nat.size_zero] at hi
      have hsz : n.size ≤ 63 := Nat.size_le.mpr h
      refine ⟨n.size - 1 - i, by omega, ?_⟩
      rw [show i + (n.size - 1 - i) = n.size - 1 by omega]
      exact testBit_size_sub_one hn0
  apply Nat.eq_of_testBit_eq
  intro i
  rw [Nat.testBit_two_pow_sub_one]
  by_cases hi : i < n.size
  · simp only [hi, decide_True]
    exact (hiff i).mpr hi
  · simp only [hi, decide_False]
    cases hres : (smear64 n).testBit i
    · rfl
    · exact absurd ((hiff i).mp hres) hi

/-- For positive sizes that avoid `int` overflow, `nextPowerOf2` computes
exactly the least power of two that is at least the requested size. -/
theorem nextPowerOf2_eq {R : Nat} (h1 : 1 ≤ R) (h2 : R ≤ 2 ^ 62) :
    nextPowerOf2 R = 2 ^ Nat.clog 2 R := by
  have hR1 : R - 1 < 2 ^ 63 := by
    have hp : (2 : Nat) ^ 62 < 2 ^ 63 := by norm_num
    omega
  rw [nextPowerOf2, smear64_eq hR1]
  have key : (R - 1).size = Nat.clog 2 R := by
    apply Nat.le_antisymm
    · have hle : R ≤ 2 ^ Nat.clog 2 R := Nat.le_pow_clog (by norm_num) R
      exact Nat.size_le.mpr (by omega)
    · have hlt : R - 1 < 2 ^ (R - 1).size := Nat.lt_size_self _
      exact (Nat.le_pow_iff_clog_le (by norm_num)).mp (by omega)
  rw [key]
  have := Nat.two_pow_pos (Nat.clog 2 R)
  omega

theorem nextPowerOf2_ge {R : Nat} (h1 : 1 ≤ R) (h2 : R ≤ 2 ^ 62) :
    R ≤ nextPowerOf2 R := by
  rw [nextPowerOf2_eq h1 h2]
  exact Nat.le_pow_clog (by norm_num) R

theorem nextPowerOf2_min {R m : Nat} (h1 : 1 ≤ R) (h2 : R ≤ 2 ^ 62)
    (hm : R ≤ 2 ^ m) : nextPowerOf2 R ≤ 2 ^ m := by
  rw [nextPowerOf2_eq h1 h2]
  exact Nat.pow_le_pow_right (by norm_num)
    ((Nat.le_pow_iff_clog_le (by norm_num)).mp hm)

/-! ## Ring buffer invariants and sequential semantics -/

/-- State well-formedness: power-of-two capacity, masked indices, slot
array of full capacity. -/
def RingInv (r : Ring α) : Prop :=
  (∃ k, r.cap = 2 ^ k) ∧ r.head < r.cap ∧ r.tail < r.cap ∧ r.buf.length = r.cap

theorem mod_small_cases {a C : Nat} (h : a < 2 * C) :
    a % C = if a < C then a else a - C := by
  by_cases hlt : a < C
  · simp [Nat.mod_eq_of_lt hlt, hlt]
  · have hC : 0 < C := by omega
    have hs : a - C < C := by omega
    rw [if_neg hlt, Nat.mod_eq_sub_mod (by omega), Nat.mod_eq_of_lt hs]

theorem mask_eq_mod {x : Nat} {r : Ring α} (hk : ∃ k, r.cap = 2 ^ k) :
    x &&& (r.cap - 1) = x % r.cap := by
  obtain ⟨k, hk⟩ := hk
  rw [hk]
  exact Nat.and_pow_two_sub_one_eq_mod x k

theorem ringInv_init (α : Type) {R : Nat} (h1 : 1 ≤ R) (h2 : R ≤ 2 ^ 62) :
    RingInv (Ring.init α R) := by
  have hcap : (Ring.init α R).cap = 2 ^ Nat.clog 2 R := nextPowerOf2_eq h1 h2
  have hpos : 0 < (Ring.init α R).cap := by
    rw [hcap]
    exact Nat.two_pow_pos _
  refine ⟨⟨Nat.clog 2 R, hcap⟩, hpos, hpos, ?_⟩
  simp [Ring.init]

theorem ringInv_put {r : Ring α} (hinv : RingInv r) (x : α) :
    RingInv (r.put x).2 := by
  obtain ⟨hk, hh, ht, hb⟩ := hinv
  have hC : 0 < r.cap := by
    obtain ⟨k, hk'⟩ := hk
    rw [hk']
    exact Nat.two_pow_pos _
  unfold Ring.put
  by_cases hfull : (r.head + 1) &&& (r.cap - 1) = r.tail
  · simpa [hfull] using ⟨hk, hh, ht, hb⟩
  · simp only [if_neg hfull]
    refine ⟨hk, ?_, ht, by simpa using hb⟩
    rw [mask_eq_mod hk]
    exact Nat.mod_lt _ hC

theorem ringInv_get {r : Ring α} (hinv : RingInv r) :
    RingInv r.get.2 := by
  obtain ⟨hk, hh, ht, hb⟩ := hinv
  have hC : 0 < r.cap := by
    obtain ⟨k, hk'⟩ := hk
    rw [hk']
    exact Nat.two_pow_pos _
  unfold Ring.get
  by_cases hempty : r.tail = r.head
  · simpa [hempty] using ⟨hk, hh, ht, hb⟩
  · simp only [if_neg hempty]
    refine ⟨hk, hh, ?_, by simpa using hb⟩
    rw [mask_eq_mod hk]
    exact Nat.mod_lt _ hC

theorem ringInv_run {r : Ring α} (hinv : RingInv r) (ops : List (RingOp α)) :
    RingInv (r.run ops) ∧ (r.run ops).cap = r.cap := by
  induction ops generalizing r with
  | nil => exact ⟨hinv, rfl⟩
  | cons op ops ih =>
    have hput_cap : ∀ (y : α), (r.put y).2.cap = r.cap := by
      intro y
      simp only [Ring.put]
      split <;> rfl
    have hget_cap : r.get.2.cap = r.cap := by
      simp only [Ring.get]
      split <;> rfl
    have hstep : RingInv (r.step op) ∧ (r.step op).cap = r.cap := by
      cases op with
      | put x => exact ⟨ringInv_put hinv x, hput_cap x⟩
      | get => exact ⟨ringInv_get hinv, hget_cap⟩
    have hrun := ih hstep.1
    refine ⟨hrun.1, ?_⟩
    show ((r.step op).run ops).cap = r.cap
    rw [hrun.2, hstep.2]

/-- `Put` fails exactly on occupancy `cap - 1` (the permanently vacant
slot), for any well-formed state. -/
theorem put_false_iff {r : Ring α} (hinv : RingInv r) (x : α) :
    (r.put x).1 = false ↔ r.occupancy = r.cap - 1 := by
  obtain ⟨hk, hh, ht, _⟩ := hinv
  have hC : 0 < r.cap := by
    obtain ⟨k, hk'⟩ := hk
    rw [hk']
    exact Nat.two_pow_pos _
  have hput : (r.put x).1 = false ↔ (r.head + 1) % r.cap = r.tail := by
    unfold Ring.put
    rw [mask_eq_mod hk]
    by_cases hfull : (r.head + 1) % r.cap = r.tail
    · simp [hfull]
    · simp [hfull]
  rw [hput, Ring.occupancy]
  have e1 : (r.head + 1) % r.cap = if r.head + 1 < r.cap then r.head + 1
      else r.head + 1 - r.cap := mod_small_cases (by omega)
  have e2 : (r.head + r.cap - r.tail) % r.cap
      = if r.head + r.cap - r.tail < r.cap then r.head + r.cap - r.tail
        else r.head + r.cap - r.tail - r.cap := mod_small_cases (by omega)
  rw [e1, e2]
  by_cases c1 : r.head + 1 < r.cap <;> by_cases c2 : r.head + r.cap - r.tail < r.cap <;>
    simp only [c1, c2, if_pos, if_neg, if_true, if_false] <;> omega

theorem occupancy_lt {r : Ring α} (hinv : RingInv r) :
    r.occupancy ≤ r.cap - 1 := by
  obtain ⟨hk, _, _, _⟩ := hinv
  have hC : 0 < r.cap := by
    obtain ⟨k, hk'⟩ := hk
    rw [hk']
    exact Nat.two_pow_pos _
  have := Nat.mod_lt (r.head + r.cap - r.tail) hC
  unfold Ring.occupancy
  omega

/-! ## Sequential FIFO machinery -/

/-- Write `xs` into consecutive slots starting at `h`. -/
def writeSeq (buf : List (Option α)) (h : Nat) : List α → List (Option α)
  | [] => buf
  | x :: xs => writeSeq (buf.set h (some x)) (h + 1) xs

theorem writeSeq_length (xs : List α) :
    ∀ (buf : List (Option α)) (h : Nat), (writeSeq buf h xs).length = buf.length := by
  induction xs with
  | nil => intro buf h; rfl
  | cons x xs ih =>
    intro buf h
    simp [writeSeq, ih]

theorem writeSeq_getD_lt (xs : List α) :
    ∀ (buf : List (Option α)) (h j : Nat), j < h →
      (writeSeq buf h xs).getD j none = buf.getD j none := by
  induction xs with
  | nil => intro buf h j _; rfl
  | cons x xs ih =>
    intro buf h j hj
    simp only [writeSeq]
    rw [ih _ (h + 1) j (by omega)]
    have : h ≠ j := by omega
    simp [List.getD_eq_getElem?_getD, List.getElem?_set_ne this]

theorem writeSeq_set_comm (xs : List α) :
    ∀ (buf : List (Option α)) (h j : Nat) (v : Option α), j < h →
      (writeSeq buf h xs).set j v = writeSeq (buf.set j v) h xs := by
  induction xs with
  | nil => intro buf h j v _; rfl
  | cons x xs ih =>
    intro buf h j v hj
    simp only [writeSeq]
    rw [ih _ (h + 1) j v (by omega), List.set_comm _ _ _ (by omega)]

/-- All `Put`s succeed while the ring has strictly more than one free
slot, and they fill consecutive slots. -/
theorem putAll_spec (xs : List α) :
    ∀ (C h : Nat) (buf : List (Option α)), (∃ k, C = 2 ^ k) → buf.length = C →
      h + xs.length + 1 ≤ C →
      Ring.putAll ⟨C, h, 0, buf⟩ xs = (true, ⟨C, h + xs.length, 0, writeSeq buf h xs⟩) := by
  induction xs with
  | nil =>
    intro C h buf _ _ _
    simp [Ring.putAll, writeSeq]
  | cons x xs ih =>
    intro C h buf hk hb hcap
    rw [List.length_cons] at hcap
    have hC : 0 < C := by omega
    have hmask : (h + 1) &&& (C - 1) = (h + 1) % C := by
      obtain ⟨k, hk'⟩ := hk
      rw [hk']
      exact Nat.and_pow_two_sub_one_eq_mod _ k
    have hmod : (h + 1) % C = h + 1 := Nat.mod_eq_of_lt (by omega)
    have hput : Ring.put ⟨C, h, 0, buf⟩ x = (true, ⟨C, h + 1, 0, buf.set h (some x)⟩) := by
      simp only [Ring.put, hmask, hmod]
      rw [if_neg (by omega)]
    simp only [Ring.putAll, hput]
    have hih := ih C (h + 1) (buf.set h (some x)) hk (by simpa using hb) (by omega)
    rw [hih]
    simp only [Bool.and_self, List.length_cons, writeSeq]
    rw [show h + 1 + xs.length = h + (xs.length + 1) by omega]

/-- Draining `xs.length` items from a ring whose slots `t, t+1, ...` hold
`xs` returns exactly `xs` in order, each `Get` succeeding. -/
theorem getN_writeSeq (xs : List α) :
    ∀ (C t : Nat) (buf : List (Option α)), (∃ k, C = 2 ^ k) → buf.length = C →
      t + xs.length + 1 ≤ C →
      (Ring.getN ⟨C, t + xs.length, t, writeSeq buf t xs⟩ xs.length).1 = xs.map some := by
  induction xs with
  | nil =>
    intro C t buf _ _ _
    rfl
  | cons x xs ih =>
    intro C t buf hk hb hcap
    rw [List.length_cons] at hcap
    have hC : 0 < C := by omega
    have hmask : (t + 1) &&& (C - 1) = (t + 1) % C := by
      obtain ⟨k, hk'⟩ := hk
      rw [hk']
      exact Nat.and_pow_two_sub_one_eq_mod _ k
    have hmod : (t + 1) % C = t + 1 := Nat.mod_eq_of_lt (by omega)
    have hW : writeSeq buf t (x :: xs) = writeSeq (buf.set t (some x)) (t + 1) xs := rfl
    have hitem : (writeSeq buf t (x :: xs)).getD t none = some x := by
      rw [hW, writeSeq_getD_lt xs _ (t + 1) t (by omega)]
      simp [List.getD_eq_getElem?_getD, List.getElem?_set_self (show t < buf.length by omega)]
    have hlc : (x :: xs).length = xs.length + 1 := List.length_cons x xs
    have hne : ¬ (t = t + (x :: xs).length) := by
      rw [hlc]
      omega
    have hget : Ring.get ⟨C, t + (x :: xs).length, t, writeSeq buf t (x :: xs)⟩
        = (some x, ⟨C, t + (x :: xs).length, t + 1,
            (writeSeq buf t (x :: xs)).set t none⟩) := by
      simp only [Ring.get, hmask, hmod, hitem]
      rw [if_neg hne]
    have hbuf2 : (writeSeq buf t (x :: xs)).set t none
        = writeSeq ((buf.set t (some x)).set t none) (t + 1) xs := by
      rw [hW, writeSeq_set_comm xs _ (t + 1) t none (by omega)]
    have hlen2 : ((buf.set t (some x)).set t none).length = C := by simpa using hb
    have hhd : t + (x :: xs).length = t + 1 + xs.length := by
      rw [hlc]
      omega
    have hih := ih C (t + 1) ((buf.set t (some x)).set t none) hk hlen2 (by omega)
    rw [hlc]
    show (Ring.getN ⟨C, t + (xs.length + 1), t, writeSeq buf t (x :: xs)⟩ (xs.length + 1)).1
      = (x :: xs).map some
    simp only [Ring.getN]
    rw [show t + (xs.length + 1) = t + (x :: xs).length from by rw [hlc]]
    simp only [hget]
    rw [hhd] at *
    simp only [hbuf2]
    rw [hih]
    simp

/-! ## Remaining support lemmas for the claim theorems -/

instance : DecidablePred FieldVal.wf := fun v => by
  cases v <;> simp only [FieldVal.wf] <;> infer_instance

instance : DecidablePred Field.wf := fun f => by
  unfold Field.wf
  infer_instance

/-- `finishDecode` always succeeds with the sliced message. -/
theorem finishDecode_ok (b : List Nat) (level ts : Nat) (isB : Bool)
    (msgStart msgLen : Nat) :
    ∃ fs, finishDecode b level ts isB msgStart msgLen
      = some (.ok ⟨level, ts, isB, (b.drop msgStart).take msgLen, fs⟩) := by
  unfold finishDecode
  by_cases hp : msgStart + msgLen < b.length
  · obtain ⟨fs, hfs⟩ := Option.isSome_iff_exists.mp
      (parseFieldsLoop_isSome b (b.getD (msgStart + msgLen) 0) (msgStart + msgLen + 1))
    refine ⟨fs, ?_⟩
    simp only [if_pos hp, Option.bind_eq_bind, Option.some_bind, getElem?_some_getD hp, hfs]
  · exact ⟨[], by simp [hp]⟩

/-- Evaluation of the decoder on an input whose bytes at offsets 14/15 are
zero: the Basic branch is unreachable and the decoder behaves as the
Structured reader. -/
theorem decodeRecord_pm0_eval {b : List Nat} (h16 : 16 ≤ b.length)
    (hmagic : u32le (b.getD 0 0) (b.getD 1 0) (b.getD 2 0) (b.getD 3 0) = 0x5A4C4F47)
    (h14 : b.getD 14 0 = 0) (h15 : b.getD 15 0 = 0) :
    decodeRecord b =
      if 23 ≤ b.length then
        if 23 + b.getD 22 0 ≤ b.length then
          finishDecode b (b.getD 5 0)
            (u64le (b.getD 14 0) (b.getD 15 0) (b.getD 16 0) (b.getD 17 0) (b.getD 18 0)
              (b.getD 19 0) (b.getD 20 0) (b.getD 21 0)) false 23 (b.getD 22 0)
        else some (.error "invalid log entry: cannot determine format")
      else some (.error "invalid log entry: message truncated") := by
  have hm32 : read32le b 0 = some 0x5A4C4F47 := by
    rw [read32le_eval (by omega)]
    simp only [Nat.reduceAdd]
    rw [hmagic]
  have hpm : read16le b 14 = some 0 := by
    rw [read16le_eval (by omega)]
    simp only [Nat.reduceAdd]
    rw [h14, h15]
    rfl
  have hcnot : ¬ (0 < (0 : Nat) ∧ (0 : Nat) ≤ 65535 ∧ 16 + 0 ≤ b.length) := by simp
  have hlen16 : ¬ (b.length < 16) := by omega
  simp only [decodeRecord, Option.bind_eq_bind, Option.some_bind, if_neg hlen16, hm32,
    if_neg (show ¬ ((0x5A4C4F47 : Nat) ≠ 0x5A4C4F47) by simp),
    getElem?_some_getD (show 5 < b.length by omega), if_pos h16, hpm, if_neg hcnot]
  by_cases h23 : 23 ≤ b.length
  · rw [if_pos h23, if_pos h23]
    simp only [Option.bind_eq_bind, Option.some_bind,
      getElem?_some_getD (show 22 < b.length by omega)]
    by_cases h23m : 23 + b.getD 22 0 ≤ b.length
    · rw [if_pos h23m, if_pos h23m, read64le_eval (by omega)]
      simp only [Nat.reduceAdd, Option.some_bind]
    · rw [if_neg h23m, if_neg h23m]
  · rw [if_neg h23, if_neg h23]

/-- Taking up to the length-clamp is taking up to the clamp. -/
theorem take_min_length (l : List Nat) (k : Nat) :
    l.take (min l.length k) = l.take k := by
  rcases Nat.le_total l.length k with h | h
  · rw [Nat.min_eq_left h, List.take_of_length_le (Nat.le_refl _), List.take_of_length_le h]
  · rw [Nat.min_eq_right h]

/-! ## Claim theorems -/

/-- C3 (code bug in `BufferPool`): a `Put` of a buffer of exact class
capacity 64 followed by `Get(64)` does NOT return the same buffer: the
broken `leadingZeros64` (a sum of eight table lookups, always ≥ 464)
makes `Put`'s class index negative, so the buffer is dropped and the
pools stay empty; the next `Get` allocates a fresh backing array
(`id = 1` instead of the pooled `id = 0`). -/
theorem bufferpool_put_get_no_reuse :
    ((BPState.init.get 64).1 = ⟨0, 64, 0⟩)
    ∧ (((BPState.init.get 64).2.put (BPState.init.get 64).1).pools = List.replicate 20 [])
    ∧ ((((BPState.init.get 64).2.put (BPState.init.get 64).1).get 64).1 = ⟨1, 64, 0⟩)
    ∧ leadingZeros64 63 = 512 := by
  exact ⟨rfl, rfl, rfl, rfl⟩

/-- C4 (code bug in `BufferPool.Get`): the class index the code computes
is `0` for every size (the broken `leadingZeros64` always returns at
least 464, so `64 - lz - 6` is negative and clamps to 0), while the
specified `ceil(log2(size)) - 6` gives 1 for size 128 and 7 for
size 8192. -/
theorem bufferpool_classidx_bug :
    getClassIdx 128 = 0 ∧ Nat.clog 2 128 - 6 = 1
    ∧ getClassIdx 8192 = 0 ∧ Nat.clog 2 8192 - 6 = 7 := by
  have h128 : Nat.clog 2 128 = 7 := by
    have : (128 : Nat) = 2 ^ 7 := by norm_num
    rw [this, Nat.clog_pow 2 7 (by norm_num)]
  have h8192 : Nat.clog 2 8192 = 13 := by
    have : (8192 : Nat) = 2 ^ 13 := by norm_num
    rw [this, Nat.clog_pow 2 13 (by norm_num)]
  refine ⟨rfl, ?_, rfl, ?_⟩
  · rw [h128]
  · rw [h8192]

/-- C8: the decoder (`TerminalWriter.Write` together with
`decodeFieldValueBuf`) is total on every byte sequence: it returns a
decoded record or a decode error, and every index into the input taken
while parsing the header, message, field keys and field values is in
bounds (the model performs every access through a checked read whose
failure would surface as `none`, and `none` is never returned). -/
theorem decoder_total (b : List Nat) : (decodeRecord b).isSome = true :=
  decodeRecord_isSome b

/-- C9: field-value decoding is defensive.  For every fixed-width value
(8 bytes for Int/Uint/Bool/Float64, 4 for Float32) whose width exceeds
the remaining buffer, and for every String/Bytes value whose
2-byte big-endian declared length exceeds the remaining buffer,
`decodeFieldValueBuf` yields the placeholder `'?'` and advances the
cursor by the declared length past the value's start; and it never
fails on any input. -/
theorem decode_field_defensive (b : List Nat) (pos : Nat) :
    (∀ ft, (ft = 0 ∨ ft = 1 ∨ ft = 3 ∨ ft = 5) → b.length < pos + 8 →
      decodeFieldValueBuf b pos ft = some (.dplaceholder, pos + 8))
    ∧ (b.length < pos + 4 → decodeFieldValueBuf b pos 2 = some (.dplaceholder, pos + 4))
    ∧ (∀ ft slen, (ft = 4 ∨ ft = 6) → pos + 2 ≤ b.length →
        u16be (b.getD pos 0) (b.getD (pos + 1) 0) = slen →
        b.length < pos + 2 + slen →
        decodeFieldValueBuf b pos ft = some (.dplaceholder, pos + 2 + slen))
    ∧ (∀ ft, (decodeFieldValueBuf b pos ft).isSome = true) := by
  refine ⟨?_, ?_, ?_, fun ft => decodeFieldValueBuf_isSome b pos ft⟩
  · intro ft hft hlen
    have hc : b.length - pos < 8 := by omega
    rcases hft with rfl | rfl | rfl | rfl <;> simp [decodeFieldValueBuf, hc]
  · intro hlen
    have hc : b.length - pos < 4 := by omega
    simp [decodeFieldValueBuf, hc]
  · intro ft slen hft h2 hsl hlen
    obtain ⟨x0, hx0⟩ : ∃ x, b[pos]? = some x :=
      ⟨_, getElem?_some_getD (by omega)⟩
    obtain ⟨x1, hx1⟩ : ∃ x, b[pos + 1]? = some x :=
      ⟨_, getElem?_some_getD (by omega)⟩
    have hx0v : b.getD pos 0 = x0 := getD_of_getElem? hx0
    have hx1v : b.getD (pos + 1) 0 = x1 := getD_of_getElem? hx1
    have hsl2 : u16be x0 x1 = slen := by rw [← hx0v, ← hx1v]; exact hsl
    have hc1 : ¬ (b.length - pos < 2) := by omega
    have hc2 : b.length - pos < 2 + u16be x0 x1 := by omega
    have hc2s : b.length - pos < 2 + slen := by omega
    rcases hft with rfl | rfl <;>
      simp [decodeFieldValueBuf, hx0, hx1, hc1, hc2, hc2s, hsl2]

/-- C9 witness: concrete truncated inputs for each shape of the defensive
path, and totality at an unknown type byte. -/
theorem decode_field_defensive_witness :
    decodeFieldValueBuf [1, 2, 3] 0 0 = some (.dplaceholder, 0 + 8)
    ∧ decodeFieldValueBuf [1, 2, 3] 0 2 = some (.dplaceholder, 0 + 4)
    ∧ decodeFieldValueBuf [1, 2, 3] 0 4 = some (.dplaceholder, 0 + 2 + 258)
    ∧ (decodeFieldValueBuf [1, 2, 3] 0 9).isSome = true := by
  refine ⟨?_, ?_, ?_, ?_⟩
  · exact (decode_field_defensive [1, 2, 3] 0).1 0 (by decide) (by decide)
  · exact (decode_field_defensive [1, 2, 3] 0).2.1 (by decide)
  · exact (decode_field_defensive [1, 2, 3] 0).2.2.1 4 258 (by decide) (by decide)
      (by decide) (by decide)
  · exact (decode_field_defensive [1, 2, 3] 0).2.2.2 9

/-- C1 (corrected): the round-trip holds only when the decoder's Basic
heuristic cannot fire, i.e. when the low 16 bits of the timestamp are
zero or point past the end of the record; under that proviso (and a
buffer large enough that the encoder's guard truncates nothing) decoding
the structured encoding recovers level, timestamp, message and every
field's key, type and value. -/
theorem structured_roundtrip_amended {bufLen level seq ts : Nat} {msg : List Nat}
    {fields : List Field} (hlevel : level < 256) (hts : ts < 2 ^ 64)
    (hm : msg.length ≤ 255) (hf : fields.length ≤ 255) (hwf : ∀ f ∈ fields, f.wf)
    (hbuf : 24 + msg.length + (encCat fields).length + 65 ≤ bufLen)
    (hclass : ts % 2 ^ 16 = 0 ∨
      24 + msg.length + (encCat fields).length < 16 + ts % 2 ^ 16) :
    decodeRecord (formatStructuredMessage bufLen level seq ts msg fields)
      = some (.ok ⟨level, ts, false, msg, fields.map fieldToParsed⟩) := by
  rw [formatStructuredMessage_eq hm hf hwf hbuf]
  apply decodeRecord_structured_canonical hlevel hts hm hf hwf
  have hlen : (header22 level seq ts
      ++ msg.length :: (msg ++ fields.length :: encCat fields)).length
      = 24 + msg.length + (encCat fields).length := by
    simp only [List.length_append, List.length_cons, header22_length]
    omega
  rcases hclass with h | h
  · exact Or.inl h
  · right
    omega

/-- C1 counterexample: a timestamp whose low 16 bits are a small nonzero
value makes the decoder take the Basic branch on a structured record: the
message comes back as a slice of the timestamp bytes instead of the
encoded message. -/
theorem structured_roundtrip_counterexample :
    decodeRecord (formatStructuredMessage 200 1 1 1 [104, 105] [])
      = some (.ok ⟨1, 1, true, [0], []⟩)
    ∧ ([0] : List Nat) ≠ [104, 105] := by
  exact ⟨rfl, by decide⟩

/-- C1 witness: a concrete record with one field of every supported type
and a timestamp that is a whole number of 2^16 ticks round-trips. -/
theorem structured_roundtrip_witness :
    decodeRecord (formatStructuredMessage 300 2 9 65536 [104, 105]
        [⟨[97], .fint 5⟩, ⟨[98], .fuint 7⟩, ⟨[99], .ffloat32 1⟩, ⟨[100], .ffloat64 2⟩,
         ⟨[101], .fstr [120]⟩, ⟨[102], .fbool true⟩, ⟨[103], .fbytes [9]⟩])
      = some (.ok ⟨2, 65536, false, [104, 105],
          List.map fieldToParsed
            [⟨[97], .fint 5⟩, ⟨[98], .fuint 7⟩, ⟨[99], .ffloat32 1⟩, ⟨[100], .ffloat64 2⟩,
             ⟨[101], .fstr [120]⟩, ⟨[102], .fbool true⟩, ⟨[103], .fbytes [9]⟩]⟩) := by
  exact structured_roundtrip_amended (by decide) (by decide) (by decide) (by decide)
    (by decide) (by decide) (Or.inl (by decide))

/-- C2 (corrected): a `Write` after `Close` is rejected only when the ring
is full at the attempt (the code tries `Put` before consulting `done`):
with the ring full it returns the closed error and changes nothing, but
with a vacant slot the data is enqueued and acknowledged despite the
writer being closed. -/
theorem awWrite_postclose_amended {s : AW} {b : List Nat} {fuel : Nat}
    (hfuel : 1 ≤ fuel) (hdone : s.done = true) (hinv : RingInv s.ring) :
    (s.ring.occupancy = s.ring.cap - 1 →
      AW.write fuel s b = (some .closed, s))
    ∧ (s.ring.occupancy ≠ s.ring.cap - 1 →
      AW.write fuel s b
        = (some (.ok b.length), { s with ring := (s.ring.put b).2 })) := by
  obtain ⟨f, rfl⟩ : ∃ f, fuel = f + 1 := ⟨fuel - 1, by omega⟩
  constructor
  · intro hocc
    have hput : (s.ring.put b).1 = false := (put_false_iff hinv b).mpr hocc
    simp [AW.write, hput, hdone]
  · intro hocc
    have hput : (s.ring.put b).1 = true := by
      cases h : (s.ring.put b).1
      · exact absurd ((put_false_iff hinv b).mp h) hocc
      · rfl
    simp [AW.write, hput]

/-- C2 counterexample: with `done = true` and an empty 4-slot ring, a
write succeeds and enqueues the payload instead of failing with the
closed error. -/
theorem awWrite_postclose_counterexample :
    (AW.write 1 ⟨Ring.init (List Nat) 4, true, []⟩ [1, 2, 3]).1 = some (.ok 3)
    ∧ (AW.write 1 ⟨Ring.init (List Nat) 4, true, []⟩ [1, 2, 3]).2.ring.occupancy = 1 := by
  exact ⟨rfl, rfl⟩

/-- C2 witness: the amended theorem at a concrete non-full closed writer. -/
theorem awWrite_postclose_witness :
    ((⟨Ring.init (List Nat) 4, true, []⟩ : AW).ring.occupancy
        ≠ (⟨Ring.init (List Nat) 4, true, []⟩ : AW).ring.cap - 1)
    ∧ AW.write 1 ⟨Ring.init (List Nat) 4, true, []⟩ [7]
        = (some (.ok 1),
           { (⟨Ring.init (List Nat) 4, true, []⟩ : AW) with
             ring := ((⟨Ring.init (List Nat) 4, true, []⟩ : AW).ring.put [7]).2 }) := by
  refine ⟨by decide, ?_⟩
  exact (awWrite_postclose_amended (by decide) rfl
    (ringInv_init (List Nat) (by decide) (by decide))).2 (by decide)

/-- C6: a ring built for requested size `R` has as capacity the least
power of two ≥ `R`, and after any sequential run of operations a `Put`
fails exactly when the occupancy is `capacity - 1`; the occupancy never
exceeds `capacity - 1` (one slot always vacant). -/
theorem ring_capacity_occupancy (α : Type) (R : Nat) (ops : List (RingOp α))
    (h1 : 1 ≤ R) (h2 : R ≤ 2 ^ 62) :
    (R ≤ ((Ring.init α R).run ops).cap
      ∧ (∃ k, ((Ring.init α R).run ops).cap = 2 ^ k)
      ∧ (∀ m, R ≤ 2 ^ m → ((Ring.init α R).run ops).cap ≤ 2 ^ m))
    ∧ (∀ x, (((Ring.init α R).run ops).put x).1 = false
        ↔ ((Ring.init α R).run ops).occupancy = ((Ring.init α R).run ops).cap - 1)
    ∧ ((Ring.init α R).run ops).occupancy ≤ ((Ring.init α R).run ops).cap - 1 := by
  have hinv0 := ringInv_init α h1 h2
  have hrun := ringInv_run hinv0 ops
  have hcap : ((Ring.init α R).run ops).cap = nextPowerOf2 R := hrun.2
  refine ⟨⟨?_, ?_, ?_⟩, ?_, ?_⟩
  · rw [hcap]
    exact nextPowerOf2_ge h1 h2
  · rw [hcap, nextPowerOf2_eq h1 h2]
    exact ⟨_, rfl⟩
  · intro m hm
    rw [hcap]
    exact nextPowerOf2_min h1 h2 hm
  · intro x
    exact put_false_iff hrun.1 x
  · exact occupancy_lt hrun.1

/-- C6 witness: a size-5 ring over a concrete run of two puts and a get. -/
theorem ring_capacity_occupancy_witness :
    (5 ≤ ((Ring.init Nat 5).run [RingOp.put 1, RingOp.put 2, RingOp.get]).cap
      ∧ (∃ k, ((Ring.init Nat 5).run [RingOp.put 1, RingOp.put 2, RingOp.get]).cap = 2 ^ k)
      ∧ (5 ≤ 2 ^ 3 →
          ((Ring.init Nat 5).run [RingOp.put 1, RingOp.put 2, RingOp.get]).cap ≤ 2 ^ 3))
    ∧ ((((Ring.init Nat 5).run [RingOp.put 1, RingOp.put 2, RingOp.get]).put 7).1 = false
        ↔ ((Ring.init Nat 5).run [RingOp.put 1, RingOp.put 2, RingOp.get]).occupancy
            = ((Ring.init Nat 5).run [RingOp.put 1, RingOp.put 2, RingOp.get]).cap - 1)
    ∧ ((Ring.init Nat 5).run [RingOp.put 1, RingOp.put 2, RingOp.get]).occupancy
        ≤ ((Ring.init Nat 5).run [RingOp.put 1, RingOp.put 2, RingOp.get]).cap - 1 := by
  have h := ring_capacity_occupancy Nat 5 [RingOp.put 1, RingOp.put 2, RingOp.get]
    (by decide) (by decide)
  exact ⟨⟨h.1.1, h.1.2.1, fun hm => h.1.2.2 3 hm⟩, h.2.1 7, h.2.2⟩

/-- C7: sequential FIFO order: for `N ≤ capacity - 1` items, `N` `Put`s
all succeed and the following `N` `Get`s return exactly those items, in
`Put` order, each reporting success. -/
theorem ring_fifo (α : Type) (R : Nat) (items : List α)
    (h1 : 1 ≤ R) (h2 : R ≤ 2 ^ 62)
    (hN : items.length ≤ (Ring.init α R).cap - 1) :
    (Ring.putAll (Ring.init α R) items).1 = true
    ∧ ((Ring.putAll (Ring.init α R) items).2.getN items.length).1 = items.map some := by
  have hk : ∃ k, nextPowerOf2 R = 2 ^ k := ⟨Nat.clog 2 R, nextPowerOf2_eq h1 h2⟩
  have hC : 0 < nextPowerOf2 R := by
    obtain ⟨k, hk2⟩ := hk
    rw [hk2]
    exact Nat.two_pow_pos k
  have hcap : (Ring.init α R).cap = nextPowerOf2 R := rfl
  rw [hcap] at hN
  have hbl : (List.replicate (nextPowerOf2 R) (none : Option α)).length = nextPowerOf2 R := by
    simp
  have hinit : Ring.init α R
      = ⟨nextPowerOf2 R, 0, 0, List.replicate (nextPowerOf2 R) none⟩ := rfl
  have hput := putAll_spec items (nextPowerOf2 R) 0
    (List.replicate (nextPowerOf2 R) none) hk hbl (by omega)
  rw [hinit, hput]
  refine ⟨rfl, ?_⟩
  exact getN_writeSeq items (nextPowerOf2 R) 0
    (List.replicate (nextPowerOf2 R) none) hk hbl (by omega)

/-- C7 witness: three items through a size-4 (capacity-4) ring. -/
theorem ring_fifo_witness :
    ((3 : Nat) ≤ (Ring.init Nat 4).cap - 1)
    ∧ (Ring.putAll (Ring.init Nat 4) [10, 20, 30]).1 = true
    ∧ ((Ring.putAll (Ring.init Nat 4) [10, 20, 30]).2.getN 3).1 = [10, 20, 30].map some := by
  refine ⟨by decide, ?_⟩
  exact ring_fifo Nat 4 [10, 20, 30] (by decide) (by decide) (by decide)

/-- C5 (corrected): the three encoders disagree on truncation.  The basic
`Logger.formatMessage` writes the WHOLE message (no truncation) with a
16-bit length prefix equal to `len(msg) mod 2^16`; the structured encoder
truncates to 255 bytes with a matching 1-byte prefix; `UltimateLogger`
truncates to 200 bytes with a matching 1-byte prefix. -/
theorem message_truncation_amended :
    (∀ (level ts : Nat) (msg : List Nat),
      (formatMessage level ts msg).drop 16 = msg
      ∧ (formatMessage level ts msg).getD 14 0 = leByte (msg.length % 65536) 0
      ∧ (formatMessage level ts msg).getD 15 0 = leByte (msg.length % 65536) 1)
    ∧ (∀ (bufLen level seq ts : Nat) (msg : List Nat) (fields : List Field),
      ((formatStructuredMessage bufLen level seq ts msg fields).drop 23).take
          (min msg.length 255) = msg.take 255
      ∧ (formatStructuredMessage bufLen level seq ts msg fields).getD 22 0
          = (msg.take 255).length)
    ∧ (∀ (level seq ts : Nat) (msg : List Nat),
      (formatUltimateMessage level seq ts msg).drop 23 = msg.take 200
      ∧ (formatUltimateMessage level seq ts msg).getD 22 0 = (msg.take 200).length) := by
  refine ⟨?_, ?_, ?_⟩
  · intro level ts msg
    have hpl : (magicBytes ++ [1, level % 256] ++ le8 ts
        ++ [leByte (msg.length % 65536) 0, leByte (msg.length % 65536) 1]).length = 16 := by
      simp [magicBytes, le8]
    refine ⟨List.drop_left' hpl, ?_, ?_⟩
    · have h14 : (formatMessage level ts msg)[14]?
          = some (leByte (msg.length % 65536) 0) := by
        show ((magicBytes ++ [1, level % 256] ++ le8 ts
          ++ [leByte (msg.length % 65536) 0, leByte (msg.length % 65536) 1]) ++ msg)[14]?
            = some (leByte (msg.length % 65536) 0)
        rw [List.getElem?_append_left (by rw [hpl]; omega)]
        rfl
      exact getD_of_getElem? h14
    · have h15 : (formatMessage level ts msg)[15]?
          = some (leByte (msg.length % 65536) 1) := by
        show ((magicBytes ++ [1, level % 256] ++ le8 ts
          ++ [leByte (msg.length % 65536) 0, leByte (msg.length % 65536) 1]) ++ msg)[15]?
            = some (leByte (msg.length % 65536) 1)
        rw [List.getElem?_append_left (by rw [hpl]; omega)]
        rfl
      exact getD_of_getElem? h15
  · intro bufLen level seq ts msg fields
    have e : formatStructuredMessage bufLen level seq ts msg fields
        = (header22 level seq ts ++ [min msg.length 255]) ++ (msg.take (min msg.length 255)
            ++ (min fields.length 255) :: encodeFieldsLoop bufLen (24 + min msg.length 255)
              (fields.take (min fields.length 255))) := by
      simp [formatStructuredMessage]
    have hl : (header22 level seq ts ++ [min msg.length 255]).length = 23 := by
      simp [header22_length]
    constructor
    · rw [e, List.drop_left' hl]
      have hlt : (msg.take (min msg.length 255)).length = min msg.length 255 := by
        rw [List.length_take]
        omega
      rw [List.take_left' hlt]
      exact take_min_length msg 255
    · have h22 : (formatStructuredMessage bufLen level seq ts msg fields)[22]?
          = some (min msg.length 255) := by
        rw [e, List.getElem?_append_left (by rw [hl]; omega),
          List.getElem?_append_right (by simp [header22_length])]
        simp [header22_length]
      rw [getD_of_getElem? h22, List.length_take]
      omega
  · intro level seq ts msg
    have e : formatUltimateMessage level seq ts msg
        = (magicBytes ++ [1, level % 256] ++ le8 seq ++ le8 ts ++ [min msg.length 200])
            ++ msg.take (min msg.length 200) := by
      simp [formatUltimateMessage]
    have hl : (magicBytes ++ [1, level % 256] ++ le8 seq ++ le8 ts
        ++ [min msg.length 200]).length = 23 := by
      simp [magicBytes, le8]
    constructor
    · rw [e, List.drop_left' hl]
      exact take_min_length msg 200
    · have h22 : (formatUltimateMessage level seq ts msg)[22]?
          = some (min msg.length 200) := by
        rw [e, List.getElem?_append_left (by rw [hl]; omega),
          List.getElem?_append_right (by simp [magicBytes, le8])]
        simp [magicBytes, le8]
      rw [getD_of_getElem? h22, List.length_take]
      omega

set_option maxRecDepth 4096 in
/-- C5 counterexample: the basic logger does not truncate at 255 — a
256-byte message goes on the wire whole — and the ultimate logger
truncates a 220-byte message to 200, not to its 255-truncation. -/
theorem message_truncation_counterexample :
    ((formatMessage 1 0 (List.replicate 256 7)).drop 16).length = 256
    ∧ ¬ ((256 : Nat) ≤ 255)
    ∧ ((formatUltimateMessage 1 1 0 (List.replicate 220 7)).drop 23).length = 200
    ∧ (200 : Nat) ≠ 220 := by
  have h1 : (formatMessage 1 0 (List.replicate 256 7)).length = 272 := by
    simp [formatMessage, magicBytes, le8]
  have h2 : (formatUltimateMessage 1 1 0 (List.replicate 220 7)).length = 223 := by
    simp [formatUltimateMessage, magicBytes, le8]
  refine ⟨?_, by decide, ?_, by decide⟩
  · rw [List.length_drop, h1]
  · rw [List.length_drop, h2]

/-- C10 (corrected): an input with a valid magic header and a zero u16 at
offset 14 is never classified Basic; it is decoded as Structured only
when the full structured message (23 bytes of header plus the 1-byte
message length at offset 22) fits, and inputs of 23 or more bytes whose
offset-22 length overruns the buffer are rejected with an error rather
than decoded. -/
theorem emptymsg_classification_amended {b : List Nat} (h16 : 16 ≤ b.length)
    (hmagic : u32le (b.getD 0 0) (b.getD 1 0) (b.getD 2 0) (b.getD 3 0) = 0x5A4C4F47)
    (h14 : b.getD 14 0 = 0) (h15 : b.getD 15 0 = 0) :
    (∀ r, decodeRecord b = some (.ok r) → r.isBasic = false)
    ∧ (23 + b.getD 22 0 ≤ b.length →
        ∃ fs, decodeRecord b = some (.ok ⟨b.getD 5 0,
          u64le (b.getD 14 0) (b.getD 15 0) (b.getD 16 0) (b.getD 17 0) (b.getD 18 0)
            (b.getD 19 0) (b.getD 20 0) (b.getD 21 0), false,
          (b.drop 23).take (b.getD 22 0), fs⟩))
    ∧ (b.length < 23 →
        decodeRecord b = some (.error "invalid log entry: message truncated"))
    ∧ (23 ≤ b.length → b.length < 23 + b.getD 22 0 →
        decodeRecord b = some (.error "invalid log entry: cannot determine format")) := by
  have heval := decodeRecord_pm0_eval h16 hmagic h14 h15
  refine ⟨?_, ?_, ?_, ?_⟩
  · intro r hr
    rw [heval] at hr
    by_cases h23 : 23 ≤ b.length
    · rw [if_pos h23] at hr
      by_cases h23m : 23 + b.getD 22 0 ≤ b.length
      · rw [if_pos h23m] at hr
        obtain ⟨fs, hfs⟩ := finishDecode_ok b (b.getD 5 0)
          (u64le (b.getD 14 0) (b.getD 15 0) (b.getD 16 0) (b.getD 17 0) (b.getD 18 0)
            (b.getD 19 0) (b.getD 20 0) (b.getD 21 0)) false 23 (b.getD 22 0)
        rw [hfs] at hr
        simp only [Option.some.injEq, Except.ok.injEq] at hr
        rw [← hr]
      · rw [if_neg h23m] at hr
        simp at hr
    · rw [if_neg h23] at hr
      simp at hr
  · intro h23m
    rw [heval, if_pos (by omega), if_pos h23m]
    exact finishDecode_ok b (b.getD 5 0)
      (u64le (b.getD 14 0) (b.getD 15 0) (b.getD 16 0) (b.getD 17 0) (b.getD 18 0)
        (b.getD 19 0) (b.getD 20 0) (b.getD 21 0)) false 23 (b.getD 22 0)
  · intro h23
    rw [heval, if_neg (by omega)]
  · intro h23 h23m
    rw [heval, if_pos h23, if_neg (by omega)]

/-- C10 counterexample: a 23-byte input with valid magic, a zero u16 at
offset 14 and message length 5 at offset 22 is an error, not a
Structured record, refuting "decoded as Structured when at least 23
bytes long". -/
theorem emptymsg_classification_counterexample :
    decodeRecord (magicBytes ++ [1, 1] ++ List.replicate 16 0 ++ [5])
      = some (.error "invalid log entry: cannot determine format")
    ∧ (magicBytes ++ [1, 1] ++ List.replicate 16 0 ++ [5]).length = 23 := by
  exact ⟨rfl, rfl⟩

/-- C10 witness: a 23-byte record with empty message decodes as a
non-Basic (Structured) record. -/
theorem emptymsg_classification_witness :
    ∃ fs, decodeRecord (magicBytes ++ [1, 1] ++ List.replicate 16 0 ++ [0])
      = some (.ok ⟨1, 0, false, [], fs⟩) := by
  exact (emptymsg_classification_amended
    (b := magicBytes ++ [1, 1] ++ List.replicate 16 0 ++ [0])
    (by decide) (by decide) (by decide) (by decide)).2.1 (by decide)

end Zlog
